import Mathlib

/-!
Verification of the 8-puzzle search engine (`src/server.js`).

The engine is a single JavaScript file; the shallow embedding below translates
its data model and algorithms into Lean:

* a board is a 3x3 grid of integers (`List (List Nat)`), 0 denoting the blank;
* `PuzzleState` mirrors the `PuzzleState` class (board, parent link, move,
  `g`, `h`, `f`); the JS constructor is `PuzzleState.make`;
* the string id `board.flat().join(',')` is modelled by the flattened list
  itself: joining decimal representations with commas is injective on
  `List Nat`, so two ids are equal exactly when the flattened lists are;
* the JS `Set` of explored ids is modelled by a duplicate-free list with
  membership and insertion (`List.insert` inserts only when absent);
* each `while` loop is a step function on a configuration
  (frontier, explored set) iterated with explicit fuel; `none` means the fuel
  ran out, which stands in for a still-running loop;
* field mutation (`neighbor.h = ...`, `neighbor.f = ...`) is modelled by
  functional update before the neighbor is inserted into the frontier; no
  other code reads those fields through an alias, so this is observationally
  faithful.
-/

namespace KPuzzle

/-! ## Boards -/

abbrev Board := List (List Nat)

abbrev Move := Int × Int

/-- Cell lookup `board[i][j]`: `none` when out of range (JS `undefined`). -/
def cell? (b : Board) (i j : Nat) : Option Nat :=
  b[i]?.bind fun r => r[j]?

/-- Cell lookup with default 0; used only where the indices are in range. -/
def cellD (b : Board) (i j : Nat) : Nat :=
  (b.getD i []).getD j 0

/-- Writing one cell of a board. -/
def setCell (b : Board) (i j : Nat) (v : Nat) : Board :=
  b.set i ((b.getD i []).set j v)

/-- The destructuring swap
`[newBoard[x][y], newBoard[nx][ny]] = [newBoard[nx][ny], newBoard[x][y]]`:
both old values are read first, then written. -/
def swapCells (b : Board) (x y nx ny : Nat) : Board :=
  setCell (setCell b x y (cellD b nx ny)) nx ny (cellD b x y)

/-- The row-major list of the nine cell coordinates, mirroring the nested
`for i / for j` loops. -/
def cellIdx : List (Nat × Nat) :=
  (List.range 3).flatMap fun i => (List.range 3).map fun j => (i, j)

/-- A 3x3 grid: three rows of three entries. -/
def BoardShape (b : Board) : Prop :=
  b.length = 3 ∧ ∀ r ∈ b, r.length = 3

/-- Well-formed puzzle input: a 3x3 grid whose entries are 0..8, each
appearing exactly once. -/
def WellFormedBoard (b : Board) : Prop :=
  BoardShape b ∧ b.flatten.Perm (List.range 9)

instance : DecidablePred BoardShape := fun b =>
  decidable_of_iff (b.length = 3 ∧ ∀ r ∈ b, r.length = 3) Iff.rfl

instance : DecidablePred WellFormedBoard := fun b =>
  decidable_of_iff (BoardShape b ∧ b.flatten.Perm (List.range 9)) Iff.rfl

/-- The goal configuration `[[1,2,3],[4,5,6],[7,8,0]]`. -/
def goalBoard : Board := [[1, 2, 3], [4, 5, 6], [7, 8, 0]]

/-- The flattened goal id, the JS string `'1,2,3,4,5,6,7,8,0'`. -/
def goalFlat : List Nat := [1, 2, 3, 4, 5, 6, 7, 8, 0]

/-- The move table `[[0,1],[1,0],[0,-1],[-1,0]]`. -/
def moveTable : List Move := [(0, 1), (1, 0), (0, -1), (-1, 0)]

/-- Position of the first 0 in row-major order among the nine cells,
mirroring `findZero` (which returns `undefined`, here `none`, when the board
has no blank). -/
def boardFindZero (b : Board) : Option (Nat × Nat) :=
  cellIdx.find? fun p => cell? b p.1 p.2 == some 0

/-- The in-bounds test `newX >= 0 && newX < 3 && newY >= 0 && newY < 3`. -/
def moveInBounds (x y : Nat) (m : Move) : Prop :=
  0 ≤ (x : Int) + m.1 ∧ (x : Int) + m.1 < 3 ∧ 0 ≤ (y : Int) + m.2 ∧ (y : Int) + m.2 < 3

instance (x y : Nat) (m : Move) : Decidable (moveInBounds x y m) := by
  unfold moveInBounds; infer_instance

/-- The board produced by sliding along `m`, together with the move: the body
of the loop inside `getNeighbors`, at the board level. -/
def neighborMoves (b : Board) : List (Move × Board) :=
  match boardFindZero b with
  | none => []
  | some (x, y) =>
    moveTable.filterMap fun m =>
      if moveInBounds x y m then
        some (m, swapCells b x y ((x : Int) + m.1).toNat ((y : Int) + m.2).toNat)
      else none

/-! ## Puzzle states -/

/-- The `PuzzleState` class: board, parent link, producing move, and the three
scores. The root has no parent and no move. -/
inductive PuzzleState : Type where
  | mk (board : Board) (parent : Option PuzzleState) (move : Option Move)
      (g : Nat) (h : Nat) (f : Nat)

def PuzzleState.board : PuzzleState → Board
  | .mk b _ _ _ _ _ => b

def PuzzleState.parent : PuzzleState → Option PuzzleState
  | .mk _ p _ _ _ _ => p

def PuzzleState.move : PuzzleState → Option Move
  | .mk _ _ m _ _ _ => m

def PuzzleState.g : PuzzleState → Nat
  | .mk _ _ _ g _ _ => g

def PuzzleState.h : PuzzleState → Nat
  | .mk _ _ _ _ h _ => h

def PuzzleState.f : PuzzleState → Nat
  | .mk _ _ _ _ _ f => f

/-- The JS constructor: `g` is `parent.g + 1` for a child and 0 for a root;
`h` and `f` start at 0. -/
def PuzzleState.make (board : Board) (parent : Option PuzzleState)
    (move : Option Move) : PuzzleState :=
  .mk board parent move (match parent with | some p => p.g + 1 | none => 0) 0 0

/-- Setting the `h` field (`neighbor.h = heuristic(neighbor)`). -/
def PuzzleState.setH : PuzzleState → Nat → PuzzleState
  | .mk b p m g _ f, v => .mk b p m g v f

/-- Setting the `f` field (`neighbor.f = neighbor.g + neighbor.h`). -/
def PuzzleState.setF : PuzzleState → Nat → PuzzleState
  | .mk b p m g h _, v => .mk b p m g h v

/-- The identity string `board.flat().join(',')`, modelled by the flattened
board itself. -/
def PuzzleState.getId (s : PuzzleState) : List Nat :=
  s.board.flatten

/-- The goal test `getId() === '1,2,3,4,5,6,7,8,0'`. -/
def PuzzleState.isGoal (s : PuzzleState) : Bool :=
  s.getId == goalFlat

/-- `findZero` of the state's board. -/
def PuzzleState.findZero (s : PuzzleState) : Option (Nat × Nat) :=
  boardFindZero s.board

/-- Successor generation: one child per in-bounds move, in the order of the
move table, each wrapping the slid board with this state as parent. -/
def PuzzleState.getNeighbors (s : PuzzleState) : List PuzzleState :=
  (neighborMoves s.board).map fun q => PuzzleState.make q.2 (some s) (some q.1)

/-- Walking parent links from a state back to the root, prepending each move:
the returned list is ordered from the root to the state. A child state always
carries a move, so the default never fires on states built by the engine. -/
def reconstructPath : PuzzleState → List Move
  | .mk _ none _ _ _ _ => []
  | .mk _ (some p) m _ _ _ => reconstructPath p ++ [m.getD (0, 0)]

/-! ## Heuristics -/

/-- Count of flat positions holding a tile that is neither the blank nor the
value the goal puts there (`tile !== 0 && tile !== index + 1`). -/
def hammingDistance (state : PuzzleState) : Nat :=
  (state.board.flatten.enum.filter fun q => q.2 != 0 && q.2 != q.1 + 1).length

/-- Per-cell Manhattan term: distance from `(i, j)` to tile `t`'s goal cell
`((t-1)/3, (t-1)%3)`; 0 for the blank. -/
def manhattanTerm (t i j : Nat) : Nat :=
  if t ≠ 0 then
    (((t - 1) / 3 : Nat) - (i : Int)).natAbs + (((t - 1) % 3 : Nat) - (j : Int)).natAbs
  else 0

/-- Sum of the Manhattan terms over the nine cells, mirroring the nested
loops accumulating into `distance`. -/
def manhattanDistance (state : PuzzleState) : Nat :=
  cellIdx.foldl (fun distance p => distance + manhattanTerm (cellD state.board p.1 p.2) p.1 p.2) 0

/-! ## Explored set and the three search loops -/

/-- The `Set` of explored ids, as a duplicate-free list queried by
membership; `List.insert` adds an id only when it is absent. -/
abbrev ExploredSet := List (List Nat)

/-- One search configuration: the frontier array and the explored set. -/
structure SearchConfig where
  frontier : List PuzzleState
  explored : ExploredSet

/-- Outcome of one loop iteration: either the loop exits with a result
(`some path` or `null`), or continues with a new configuration. -/
inductive StepOut : Type where
  | done (r : Option (List Move))
  | next (c : SearchConfig)

/-- The BFS successor loop: push each unexplored neighbor to the back of the
frontier and mark it explored at insertion time. -/
def bfsPush : List PuzzleState → List PuzzleState → ExploredSet →
    List PuzzleState × ExploredSet
  | [], fr, ex => (fr, ex)
  | n :: rest, fr, ex =>
    if n.getId ∈ ex then bfsPush rest fr ex
    else bfsPush rest (fr ++ [n]) (ex.insert n.getId)

/-- One iteration of the BFS `while` loop. -/
def bfsStep : SearchConfig → StepOut
  | ⟨[], _⟩ => .done none
  | ⟨state :: rest, explored⟩ =>
    if state.isGoal then .done (some (reconstructPath state))
    else
      let ex := explored.insert state.getId
      let fe := bfsPush state.getNeighbors rest ex
      .next ⟨fe.1, fe.2⟩

/-- Ordered insertion used by the informed searches: find the first frontier
entry whose key is strictly greater than the new state's key and insert
before it; append at the back when there is none. -/
def orderedInsert (key : PuzzleState → Nat) (fr : List PuzzleState)
    (n : PuzzleState) : List PuzzleState :=
  match fr.findIdx? (fun s => key s > key n) with
  | none => fr ++ [n]
  | some i => fr.insertIdx i n

/-- The Best-First successor loop: score each unexplored neighbor with the
heuristic and insert it into the frontier ordered by `h`. -/
def bestFirstPush (heuristic : PuzzleState → Nat) :
    List PuzzleState → List PuzzleState → ExploredSet → List PuzzleState
  | [], fr, _ => fr
  | n :: rest, fr, ex =>
    if n.getId ∈ ex then bestFirstPush heuristic rest fr ex
    else bestFirstPush heuristic rest
      (orderedInsert PuzzleState.h fr (n.setH (heuristic n))) ex

/-- One iteration of the Best-First `while` loop. -/
def bestFirstStep (heuristic : PuzzleState → Nat) : SearchConfig → StepOut
  | ⟨[], _⟩ => .done none
  | ⟨state :: rest, explored⟩ =>
    if state.isGoal then .done (some (reconstructPath state))
    else
      let ex := explored.insert state.getId
      .next ⟨bestFirstPush heuristic state.getNeighbors rest ex, ex⟩

/-- The A* successor loop: score each unexplored neighbor, set
`f = g + h`, and insert it into the frontier ordered by `f`. -/
def aStarPush (heuristic : PuzzleState → Nat) :
    List PuzzleState → List PuzzleState → ExploredSet → List PuzzleState
  | [], fr, _ => fr
  | n :: rest, fr, ex =>
    if n.getId ∈ ex then aStarPush heuristic rest fr ex
    else
      aStarPush heuristic rest
        (orderedInsert PuzzleState.f fr
          ((n.setH (heuristic n)).setF ((n.setH (heuristic n)).g + (n.setH (heuristic n)).h))) ex

/-- One iteration of the A* `while` loop. -/
def aStarStep (heuristic : PuzzleState → Nat) : SearchConfig → StepOut
  | ⟨[], _⟩ => .done none
  | ⟨state :: rest, explored⟩ =>
    if state.isGoal then .done (some (reconstructPath state))
    else
      let ex := explored.insert state.getId
      .next ⟨aStarPush heuristic state.getNeighbors rest ex, ex⟩

/-- Iterating a loop body with explicit fuel: `none` when the fuel runs out
before the loop exits. -/
def runLoop (step : SearchConfig → StepOut) : Nat → SearchConfig →
    Option (Option (List Move))
  | 0, _ => none
  | fuel + 1, c =>
    match step c with
    | .done r => some r
    | .next c1 => runLoop step fuel c1

/-- The configuration every driver starts from: the frontier holding the
root state and an empty explored set. -/
def initConfig (initialState : PuzzleState) : SearchConfig :=
  ⟨[initialState], []⟩

/-- The `bfs` driver on a board, fuel made explicit. -/
def bfs (puzzle : Board) (fuel : Nat) : Option (Option (List Move)) :=
  runLoop bfsStep fuel (initConfig (PuzzleState.make puzzle none none))

/-- The `bestFirstSearch` driver on a board, fuel made explicit. -/
def bestFirstSearch (puzzle : Board) (heuristic : PuzzleState → Nat)
    (fuel : Nat) : Option (Option (List Move)) :=
  runLoop (bestFirstStep heuristic) fuel (initConfig (PuzzleState.make puzzle none none))

/-- The `aStar` driver on a board, fuel made explicit. -/
def aStar (puzzle : Board) (heuristic : PuzzleState → Nat)
    (fuel : Nat) : Option (Option (List Move)) :=
  runLoop (aStarStep heuristic) fuel (initConfig (PuzzleState.make puzzle none none))

/-- Configuration reached after `n` iterations, for stating invariants about
every point of a run; `none` once the loop has exited. -/
def runConfigs (step : SearchConfig → StepOut) : Nat → SearchConfig →
    Option SearchConfig
  | 0, c => some c
  | fuel + 1, c =>
    match step c with
    | .done _ => none
    | .next c1 => runConfigs step fuel c1

/-! ## Move application, paths and distance

These notions formalise the spec's reading of a returned move sequence:
each move `[dx,dy]` slides the tile at `(blankRow+dx, blankCol+dy)` into the
blank's cell. -/

/-- Applying one returned move to a board: swap the blank with the tile the
move points at. -/
def applyMove (b : Board) (m : Move) : Board :=
  match boardFindZero b with
  | none => b
  | some (x, y) => swapCells b x y ((x : Int) + m.1).toNat ((y : Int) + m.2).toNat

/-- Applying a move sequence in order. -/
def applyMoves (b : Board) (ms : List Move) : Board :=
  ms.foldl applyMove b

/-- A legal move list from `root` to a board: every step is an in-bounds
blank slide, as produced by `neighborMoves`. -/
inductive PathTo (root : Board) : List Move → Board → Prop where
  | nil : PathTo root [] root
  | snoc {p : List Move} {b : Board} {m : Move} {b' : Board} :
      PathTo root p b → (m, b') ∈ neighborMoves b → PathTo root (p ++ [m]) b'

/-- The goal-directed reachability the spec talks about. -/
def ReachableBoard (root target : Board) : Prop :=
  ∃ p, PathTo root p target

/-- `d` is the minimum number of blank slides from `root` to `target`. -/
def MinDist (root target : Board) (d : Nat) : Prop :=
  (∃ p, PathTo root p target ∧ p.length = d) ∧
    ∀ q, PathTo root q target → d ≤ q.length

/-- Executable check that a move list is a legal slide sequence from `b`
to `target`. -/
def checkPath : Board → List Move → Board → Bool
  | b, [], target => b == target
  | b, m :: rest, target =>
    match (neighborMoves b).find? (fun q => q.1 == m) with
    | some q => checkPath q.2 rest target
    | none => false

/-- The spec's reading of the misplaced-tile count: the number of cells
holding a non-blank tile that is not on its goal cell, where tile `v`'s goal
cell is `((v-1) div 3, (v-1) mod 3)`. For a well-formed board each non-blank
tile occupies exactly one cell, so counting cells counts tiles. -/
def hammingSpec (b : Board) : Nat :=
  (cellIdx.filter fun p =>
    cellD b p.1 p.2 != 0 &&
      !((p.1 == (cellD b p.1 p.2 - 1) / 3) && (p.2 == (cellD b p.1 p.2 - 1) % 3))).length

/-- The spec's reading of the Manhattan sum: over every cell holding a
non-blank tile `v`, the grid distance `|currentRow - (v-1) div 3| +
|currentCol - (v-1) mod 3|` between the cell and `v`'s goal cell. -/
def manhattanSpec (b : Board) : Nat :=
  (cellIdx.map fun p =>
    if cellD b p.1 p.2 ≠ 0 then
      ((p.1 : Int) - (((cellD b p.1 p.2 - 1) / 3 : Nat) : Int)).natAbs +
        ((p.2 : Int) - (((cellD b p.1 p.2 - 1) % 3 : Nat) : Int)).natAbs
    else 0).sum

/-- Lineage invariant of a search-tree state: its board is well-formed, the
move list recovered from its parent chain is a legal slide sequence from the
root board to its own board, and `g` counts that chain. -/
def GoodState (root : Board) (s : PuzzleState) : Prop :=
  WellFormedBoard s.board ∧ PathTo root (reconstructPath s) s.board ∧
    s.g = (reconstructPath s).length

/-- Completeness invariant shared by the three drivers: every frontier state
carries a valid lineage; the root is accounted for; and every explored id
belongs to a reachable well-formed board that either still waits in the
frontier or has been expanded (it is not the goal and each of its neighbor
boards is explored or waiting). -/
def SearchInv (root : Board) (c : SearchConfig) : Prop :=
  (∀ s ∈ c.frontier, GoodState root s) ∧
  (root.flatten ∈ c.explored ∨ ∃ s ∈ c.frontier, s.board = root) ∧
  (∀ id ∈ c.explored, ∃ b : Board,
    WellFormedBoard b ∧ ReachableBoard root b ∧ b.flatten = id ∧
    ((∃ s ∈ c.frontier, s.board = b) ∨
      (b.flatten ≠ goalFlat ∧ ∀ m b2, (m, b2) ∈ neighborMoves b →
        b2.flatten ∈ c.explored ∨ ∃ s ∈ c.frontier, s.board = b2)))

/-- Invariant backing the termination measures: frontier boards are
well-formed and the explored set is a duplicate-free list of ids of
well-formed boards. -/
def TermInv (c : SearchConfig) : Prop :=
  (∀ s ∈ c.frontier, WellFormedBoard s.board) ∧
  c.explored.Nodup ∧ ∀ id ∈ c.explored, id.Perm (List.range 9)

/-- Number of ids a well-formed board can have: the explored set never grows
past this bound. -/
def idBound : Nat := (List.range 9).permutations.length


/-- The Manhattan heuristic as a function of the board alone: `manhattanDistance`
reads only the `board` field of its state. -/
def manhattanBoard (b : Board) : Nat :=
  manhattanDistance (PuzzleState.mk b none none 0 0 0)

/-- The Manhattan sum reindexed over flat positions `k = 3*i + j`. -/
def manhattanFlat (l : List Nat) : Nat :=
  ∑ k ∈ Finset.range 9, manhattanTerm (l.getD k 0) (k / 3) (k % 3)


/-- Layered-frontier invariant of a BFS run: the frontier is a layer of
states at depth `k` followed by a layer at depth `k + 1`, the `g` score of
every frontier entry is the true distance from the root to its board, and
every board strictly closer than `k` has been explored and expanded (it no
longer waits in the frontier). -/
def BfsOptInv (root : Board) (c : SearchConfig) : Prop :=
  ∃ k A B, c.frontier = A ++ B ∧
    (∀ s ∈ A, s.g = k) ∧ (∀ s ∈ B, s.g = k + 1) ∧
    (∀ s ∈ c.frontier, MinDist root s.board s.g) ∧
    (∀ b q, PathTo root q b → q.length < k →
      b.flatten ∈ c.explored ∧ ∀ s ∈ c.frontier, s.board ≠ b)


/-- Invariant of an A* run from the second iteration on, for a heuristic that
depends only on the board (`H`): every frontier entry carries a valid lineage
with `h` the heuristic of its board and `f = g + h`; the frontier is sorted
ascending by `f`; the goal id is never in the explored set; the root id is;
and every explored id belongs to a well-formed board at true distance `d`
each of whose unexplored neighbor boards has a frontier entry with
`g ≤ d + 1`. -/
def AStarInv (H : Board → Nat) (root : Board) (c : SearchConfig) : Prop :=
  (∀ s ∈ c.frontier, GoodState root s ∧ s.h = H s.board ∧ s.f = s.g + s.h) ∧
  c.frontier.Pairwise (fun a b => a.f ≤ b.f) ∧
  goalFlat ∉ c.explored ∧
  root.flatten ∈ c.explored ∧
  (∀ id ∈ c.explored, ∃ b d, b.flatten = id ∧ WellFormedBoard b ∧ MinDist root b d ∧
    ∀ m b2, (m, b2) ∈ neighborMoves b → b2.flatten ∉ c.explored →
      ∃ s ∈ c.frontier, s.board = b2 ∧ s.g ≤ d + 1)

/-! ## Basic board lemmas -/

theorem cellIdx_eq :
    cellIdx = [(0,0),(0,1),(0,2),(1,0),(1,1),(1,2),(2,0),(2,1),(2,2)] := rfl

theorem mem_cellIdx {p : Nat × Nat} : p ∈ cellIdx ↔ p.1 < 3 ∧ p.2 < 3 := by
  obtain ⟨i, j⟩ := p
  rw [cellIdx_eq]
  simp only [List.mem_cons, List.not_mem_nil, or_false, Prod.mk.injEq]
  omega

theorem boardShape_destruct {b : Board} (hb : BoardShape b) :
    ∃ a₀ a₁ a₂ a₃ a₄ a₅ a₆ a₇ a₈,
      b = [[a₀, a₁, a₂], [a₃, a₄, a₅], [a₆, a₇, a₈]] := by
  obtain ⟨hlen, hrows⟩ := hb
  obtain ⟨r₀, r₁, r₂, rfl⟩ := List.length_eq_three.mp hlen
  obtain ⟨a₀, a₁, a₂, h0⟩ := List.length_eq_three.mp (hrows r₀ (by simp))
  obtain ⟨a₃, a₄, a₅, h1⟩ := List.length_eq_three.mp (hrows r₁ (by simp))
  obtain ⟨a₆, a₇, a₈, h2⟩ := List.length_eq_three.mp (hrows r₂ (by simp))
  exact ⟨a₀, a₁, a₂, a₃, a₄, a₅, a₆, a₇, a₈, by rw [h0, h1, h2]⟩

theorem boardShape_explicit (a₀ a₁ a₂ a₃ a₄ a₅ a₆ a₇ a₈ : Nat) :
    BoardShape [[a₀, a₁, a₂], [a₃, a₄, a₅], [a₆, a₇, a₈]] := by
  refine ⟨rfl, ?_⟩
  intro r hr
  simp only [List.mem_cons, List.not_mem_nil, or_false] at hr
  rcases hr with rfl | rfl | rfl <;> rfl

theorem flatten_length {b : Board} (hb : BoardShape b) : b.flatten.length = 9 := by
  obtain ⟨a₀, a₁, a₂, a₃, a₄, a₅, a₆, a₇, a₈, rfl⟩ := boardShape_destruct hb
  rfl

theorem cell?_eq_flatten {b : Board} (hb : BoardShape b) {i j : Nat}
    (hi : i < 3) (hj : j < 3) : cell? b i j = b.flatten[3 * i + j]? := by
  obtain ⟨a₀, a₁, a₂, a₃, a₄, a₅, a₆, a₇, a₈, rfl⟩ := boardShape_destruct hb
  interval_cases i <;> interval_cases j <;> rfl

theorem cellD_eq_flatten {b : Board} (hb : BoardShape b) {i j : Nat}
    (hi : i < 3) (hj : j < 3) : cellD b i j = b.flatten.getD (3 * i + j) 0 := by
  obtain ⟨a₀, a₁, a₂, a₃, a₄, a₅, a₆, a₇, a₈, rfl⟩ := boardShape_destruct hb
  interval_cases i <;> interval_cases j <;> rfl

theorem flatten_inj {b b' : Board} (hb : BoardShape b) (hb' : BoardShape b')
    (h : b.flatten = b'.flatten) : b = b' := by
  obtain ⟨a₀, a₁, a₂, a₃, a₄, a₅, a₆, a₇, a₈, rfl⟩ := boardShape_destruct hb
  obtain ⟨c₀, c₁, c₂, c₃, c₄, c₅, c₆, c₇, c₈, rfl⟩ := boardShape_destruct hb'
  simp_all

theorem flatten_setCell {b : Board} (hb : BoardShape b) {i j : Nat}
    (hi : i < 3) (hj : j < 3) (v : Nat) :
    (setCell b i j v).flatten = b.flatten.set (3 * i + j) v := by
  obtain ⟨a₀, a₁, a₂, a₃, a₄, a₅, a₆, a₇, a₈, rfl⟩ := boardShape_destruct hb
  interval_cases i <;> interval_cases j <;> rfl

theorem boardShape_setCell {b : Board} (hb : BoardShape b) {i j : Nat}
    (hi : i < 3) (hj : j < 3) (v : Nat) : BoardShape (setCell b i j v) := by
  obtain ⟨a₀, a₁, a₂, a₃, a₄, a₅, a₆, a₇, a₈, rfl⟩ := boardShape_destruct hb
  interval_cases i <;> interval_cases j <;> exact boardShape_explicit ..

theorem boardShape_swapCells {b : Board} (hb : BoardShape b) {x y nx ny : Nat}
    (hx : x < 3) (hy : y < 3) (hnx : nx < 3) (hny : ny < 3) :
    BoardShape (swapCells b x y nx ny) :=
  boardShape_setCell (boardShape_setCell hb hx hy _) hnx hny _

theorem flatten_swapCells {b : Board} (hb : BoardShape b) {x y nx ny : Nat}
    (hx : x < 3) (hy : y < 3) (hnx : nx < 3) (hny : ny < 3) :
    (swapCells b x y nx ny).flatten =
      (b.flatten.set (3 * x + y) (b.flatten.getD (3 * nx + ny) 0)).set
        (3 * nx + ny) (b.flatten.getD (3 * x + y) 0) := by
  unfold swapCells
  rw [flatten_setCell (boardShape_setCell hb hx hy _) hnx hny,
    flatten_setCell hb hx hy, cellD_eq_flatten hb hnx hny, cellD_eq_flatten hb hx hy]

theorem two_le_count_of_two_pos {l : List Nat} {a : Nat} :
    ∀ {i k : Nat}, i ≠ k → l[i]? = some a → l[k]? = some a → 2 ≤ l.count a := by
  induction l with
  | nil => intro i k _ hi _; simp at hi
  | cons x t ih =>
    intro i k hik hi hk
    match i, k with
    | 0, 0 => exact absurd rfl hik
    | 0, k + 1 =>
      simp only [List.getElem?_cons_zero, Option.some.injEq] at hi
      simp only [List.getElem?_cons_succ] at hk
      have hmem : a ∈ t := List.getElem?_mem hk
      have : 1 ≤ t.count a := List.count_pos_iff.mpr hmem
      subst hi
      simp only [List.count_cons, BEq.refl, if_true]
      omega
    | i + 1, 0 =>
      simp only [List.getElem?_cons_zero, Option.some.injEq] at hk
      simp only [List.getElem?_cons_succ] at hi
      have hmem : a ∈ t := List.getElem?_mem hi
      have : 1 ≤ t.count a := List.count_pos_iff.mpr hmem
      subst hk
      simp only [List.count_cons, BEq.refl, if_true]
      omega
    | i + 1, k + 1 =>
      simp only [List.getElem?_cons_succ] at hi hk
      have := ih (by omega : i ≠ k) hi hk
      simp only [List.count_cons]
      omega

theorem find?_eq_some_of_unique {α : Type} {p : α → Bool} {a : α} :
    ∀ {l : List α}, a ∈ l → p a = true → (∀ x ∈ l, p x = true → x = a) →
      l.find? p = some a := by
  intro l
  induction l with
  | nil => intro ha; simp at ha
  | cons x t ih =>
    intro ha hpa huniq
    by_cases hx : p x = true
    · have hxa : x = a := huniq x (by simp) hx
      subst hxa
      simp [List.find?_cons_of_pos _ hx]
    · rw [List.find?_cons_of_neg _ (by simpa using hx)]
      have hat : a ∈ t := by
        rcases List.mem_cons.mp ha with rfl | h
        · exact absurd hpa hx
        · exact h
      exact ih hat hpa fun z hz hpz => huniq z (List.mem_cons_of_mem _ hz) hpz

theorem set_set_perm {l : List Nat} {p q : Nat} (hp : p < l.length)
    (hq : q < l.length) (hpq : p ≠ q) :
    ((l.set p (l.getD q 0)).set q (l.getD p 0)).Perm l := by
  rw [List.perm_iff_count]
  intro a
  have hq1 : q < (l.set p (l.getD q 0)).length := by simpa using hq
  rw [List.count_set _ _ _ _ hq1, List.count_set _ _ _ _ hp]
  have hgq : (l.set p (l.getD q 0))[q] = l[q] := List.getElem_set_ne (by omega) hq1
  have hgdq : l.getD q 0 = l[q] := by
    rw [List.getD_eq_getElem?_getD, List.getElem?_eq_getElem hq]; rfl
  have hgdp : l.getD p 0 = l[p] := by
    rw [List.getD_eq_getElem?_getD, List.getElem?_eq_getElem hp]; rfl
  have hcp : l[p] = a → 1 ≤ l.count a := fun h =>
    List.count_pos_iff.mpr (h ▸ List.getElem_mem hp)
  have hcq : l[q] = a → 1 ≤ l.count a := fun h =>
    List.count_pos_iff.mpr (h ▸ List.getElem_mem hq)
  rw [hgq, hgdq, hgdp]
  by_cases h1 : l[p] = a <;> by_cases h2 : l[q] = a <;>
    simp only [h1, h2, beq_iff_eq, if_true, if_false, eq_self_iff_true,
      Nat.sub_zero, Nat.add_zero] <;>
  first
  | (have hca := hcp h1; have hcb := hcq h2; omega)
  | (have hca := hcp h1; omega)
  | (have hcb := hcq h2; omega)
  | omega

/-! ## The blank under well-formedness -/

theorem count_zero_flatten {b : Board} (hwf : WellFormedBoard b) :
    b.flatten.count 0 = 1 := by
  rw [hwf.2.count_eq]
  decide

theorem wf_entry_lt {b : Board} (hwf : WellFormedBoard b) :
    ∀ a ∈ b.flatten, a < 9 := by
  intro a ha
  have : a ∈ List.range 9 := hwf.2.mem_iff.mp ha
  simpa using this

theorem boardFindZero_of_cell {b : Board} (hwf : WellFormedBoard b) {x y : Nat}
    (hx : x < 3) (hy : y < 3) (h0 : cell? b x y = some 0) :
    boardFindZero b = some (x, y) := by
  apply find?_eq_some_of_unique (mem_cellIdx.mpr ⟨hx, hy⟩)
  · simp [h0]
  · intro z hz hpz
    obtain ⟨i, j⟩ := z
    obtain ⟨hi, hj⟩ := mem_cellIdx.mp hz
    have hcz : cell? b i j = some 0 := by simpa using hpz
    rw [cell?_eq_flatten hwf.1 hi hj] at hcz
    rw [cell?_eq_flatten hwf.1 hx hy] at h0
    have heq : 3 * i + j = 3 * x + y := by
      by_contra hne
      have := two_le_count_of_two_pos hne hcz h0
      rw [count_zero_flatten hwf] at this
      omega
    have : i = x ∧ j = y := by omega
    simp [this.1, this.2]

theorem boardFindZero_spec {b : Board} (hwf : WellFormedBoard b) :
    ∃ x y, boardFindZero b = some (x, y) ∧ x < 3 ∧ y < 3 ∧
      cell? b x y = some 0 := by
  have h0 : (0 : Nat) ∈ b.flatten := hwf.2.mem_iff.mpr (by simp)
  obtain ⟨k, hk, hget⟩ := List.getElem_of_mem h0
  rw [flatten_length hwf.1] at hk
  have hget? : b.flatten[k]? = some 0 := by
    rw [List.getElem?_eq_getElem (by rw [flatten_length hwf.1]; omega)]
    simp [hget]
  refine ⟨k / 3, k % 3, ?_, by omega, by omega, ?_⟩
  · apply boardFindZero_of_cell hwf (by omega) (by omega)
    rw [cell?_eq_flatten hwf.1 (by omega) (by omega)]
    have : 3 * (k / 3) + k % 3 = k := by omega
    rw [this]
    exact hget?
  · rw [cell?_eq_flatten hwf.1 (by omega) (by omega)]
    have : 3 * (k / 3) + k % 3 = k := by omega
    rw [this]
    exact hget?

theorem getD_get? {l : List Nat} {q : Nat} (hq : q < l.length) (d : Nat) :
    l[q]? = some (l.getD q d) := by
  rw [List.getD_eq_getElem?_getD, List.getElem?_eq_getElem hq]
  rfl

/-! ## Neighbor moves -/

theorem boardFindZero_lt {b : Board} {x y : Nat}
    (hz : boardFindZero b = some (x, y)) :
    x < 3 ∧ y < 3 ∧ cell? b x y = some 0 := by
  have h1 := List.mem_of_find?_eq_some hz
  have h2 := List.find?_some hz
  obtain ⟨hx, hy⟩ := mem_cellIdx.mp h1
  exact ⟨hx, hy, by simpa using h2⟩

theorem mem_neighborMoves_iff {b : Board} {x y : Nat}
    (hz : boardFindZero b = some (x, y)) {m : Move} {b' : Board} :
    (m, b') ∈ neighborMoves b ↔
      m ∈ moveTable ∧ moveInBounds x y m ∧
      b' = swapCells b x y ((x : Int) + m.1).toNat ((y : Int) + m.2).toNat := by
  unfold neighborMoves
  rw [hz, List.mem_filterMap]
  constructor
  · rintro ⟨a, ha, hfa⟩
    by_cases hib : moveInBounds x y a
    · rw [if_pos hib] at hfa
      simp only [Option.some.injEq, Prod.mk.injEq] at hfa
      obtain ⟨rfl, rfl⟩ := hfa
      exact ⟨ha, hib, rfl⟩
    · rw [if_neg hib] at hfa
      cases hfa
  · rintro ⟨hm, hib, rfl⟩
    exact ⟨m, hm, by rw [if_pos hib]⟩

theorem move_delta {m : Move} (hm : m ∈ moveTable) {x y nx ny : Nat}
    (hnx : nx = ((x : Int) + m.1).toNat) (hny : ny = ((y : Int) + m.2).toNat)
    (hib : moveInBounds x y m) (hx : x < 3) (hy : y < 3) :
    nx < 3 ∧ ny < 3 ∧ 3 * nx + ny ≠ 3 * x + y ∧ (nx + ny) % 2 ≠ (x + y) % 2 := by
  simp only [moveTable, List.mem_cons, List.not_mem_nil, or_false] at hm
  obtain ⟨hib1, hib2, hib3, hib4⟩ := hib
  rcases hm with rfl | rfl | rfl | rfl <;>
    simp only at hib1 hib2 hib3 hib4 hnx hny <;> omega

theorem neighbor_props {b : Board} (hwf : WellFormedBoard b) {m : Move} {b' : Board}
    (h : (m, b') ∈ neighborMoves b) :
    ∃ x y nx ny,
      boardFindZero b = some (x, y) ∧ m ∈ moveTable ∧ moveInBounds x y m ∧
      nx = ((x : Int) + m.1).toNat ∧ ny = ((y : Int) + m.2).toNat ∧
      x < 3 ∧ y < 3 ∧ nx < 3 ∧ ny < 3 ∧ 3 * nx + ny ≠ 3 * x + y ∧
      (nx + ny) % 2 ≠ (x + y) % 2 ∧
      b' = swapCells b x y nx ny ∧
      b'.flatten =
        (b.flatten.set (3 * x + y) (b.flatten.getD (3 * nx + ny) 0)).set
          (3 * nx + ny) (b.flatten.getD (3 * x + y) 0) ∧
      WellFormedBoard b' ∧
      boardFindZero b' = some (nx, ny) ∧
      b.flatten.getD (3 * x + y) 0 = 0 ∧
      b.flatten.getD (3 * nx + ny) 0 ≠ 0 := by
  obtain ⟨x, y, hz, hx, hy, hc⟩ := boardFindZero_spec hwf
  obtain ⟨hm, hib, hswap⟩ := (mem_neighborMoves_iff hz).mp h
  obtain ⟨nx, hnx⟩ : ∃ nx, nx = ((x : Int) + m.1).toNat := ⟨_, rfl⟩
  obtain ⟨ny, hny⟩ : ∃ ny, ny = ((y : Int) + m.2).toNat := ⟨_, rfl⟩
  rw [← hnx, ← hny] at hswap
  subst hswap
  obtain ⟨hnx3, hny3, hne, hpar⟩ := move_delta hm hnx hny hib hx hy
  have hlen : b.flatten.length = 9 := flatten_length hwf.1
  have hshape2 : BoardShape (swapCells b x y nx ny) :=
    boardShape_swapCells hwf.1 hx hy hnx3 hny3
  have hflat2 : (swapCells b x y nx ny).flatten =
      (b.flatten.set (3 * x + y) (b.flatten.getD (3 * nx + ny) 0)).set
        (3 * nx + ny) (b.flatten.getD (3 * x + y) 0) :=
    flatten_swapCells hwf.1 hx hy hnx3 hny3
  have hperm : (swapCells b x y nx ny).flatten.Perm b.flatten := by
    rw [hflat2]
    exact set_set_perm (by omega) (by omega) (by omega)
  have hwf2 : WellFormedBoard (swapCells b x y nx ny) := ⟨hshape2, hperm.trans hwf.2⟩
  have hget0 : b.flatten[3 * x + y]? = some 0 := by
    rw [← cell?_eq_flatten hwf.1 hx hy]
    exact hc
  have hgetD0 : b.flatten.getD (3 * x + y) 0 = 0 := by
    have := getD_get? (l := b.flatten) (q := 3 * x + y) (by omega) 0
    rw [hget0] at this
    exact (Option.some_inj.mp this).symm
  have ht0 : b.flatten.getD (3 * nx + ny) 0 ≠ 0 := by
    intro h0
    have hq? : b.flatten[3 * nx + ny]? = some 0 := by
      rw [getD_get? (by omega : 3 * nx + ny < b.flatten.length) 0, h0]
    have := two_le_count_of_two_pos hne hq? hget0
    rw [count_zero_flatten hwf] at this
    omega
  have hcell2 : cell? (swapCells b x y nx ny) nx ny = some 0 := by
    rw [cell?_eq_flatten hshape2 hnx3 hny3, hflat2]
    rw [List.getElem?_set]
    rw [if_pos rfl, if_pos (by rw [List.length_set, hlen]; omega), hgetD0]
  have hz2 : boardFindZero (swapCells b x y nx ny) = some (nx, ny) :=
    boardFindZero_of_cell hwf2 hnx3 hny3 hcell2
  exact ⟨x, y, nx, ny, hz, hm, hib, hnx, hny, hx, hy, hnx3, hny3, hne, hpar, rfl,
    hflat2, hwf2, hz2, hgetD0, ht0⟩

theorem wf_of_neighbor {b : Board} (hwf : WellFormedBoard b) {m : Move} {b' : Board}
    (h : (m, b') ∈ neighborMoves b) : WellFormedBoard b' := by
  obtain ⟨_, _, _, _, _, _, _, _, _, _, _, _, _, _, _, _, _, hwf', _, _, _⟩ :=
    neighbor_props hwf h
  exact hwf'

/-! ## Paths -/

theorem PathTo.wf {root : Board} (hwf : WellFormedBoard root) :
    ∀ {p : List Move} {b : Board}, PathTo root p b → WellFormedBoard b := by
  intro p b hp
  induction hp with
  | nil => exact hwf
  | snoc hp hstep ih => exact wf_of_neighbor ih hstep

theorem applyMove_step {b : Board} {m : Move} {b' : Board}
    (h : (m, b') ∈ neighborMoves b) : applyMove b m = b' := by
  cases hz : boardFindZero b with
  | none =>
    exfalso
    unfold neighborMoves at h
    rw [hz] at h
    cases h
  | some xy =>
    obtain ⟨x, y⟩ := xy
    obtain ⟨hm, hib, rfl⟩ := (mem_neighborMoves_iff hz).mp h
    unfold applyMove
    rw [hz]

theorem PathTo.applyMoves_eq {root : Board} :
    ∀ {p : List Move} {b : Board}, PathTo root p b → applyMoves root p = b := by
  intro p b hp
  induction hp with
  | nil => rfl
  | snoc hp hstep ih =>
    unfold applyMoves at ih ⊢
    rw [List.foldl_append, ih, List.foldl_cons, List.foldl_nil]
    exact applyMove_step hstep

theorem PathTo.append {root mid : Board} {q : List Move} (hq : PathTo root q mid) :
    ∀ {p : List Move} {b : Board}, PathTo mid p b → PathTo root (q ++ p) b := by
  intro p b hp
  induction hp with
  | nil => simpa using hq
  | snoc hp hstep ih =>
    rw [← List.append_assoc]
    exact PathTo.snoc ih hstep

theorem checkPath_sound : ∀ {p : List Move} {b target : Board},
    checkPath b p target = true → PathTo b p target := by
  intro p
  induction p with
  | nil =>
    intro b target h
    unfold checkPath at h
    rw [beq_iff_eq] at h
    subst h
    exact .nil
  | cons m rest ih =>
    intro b target h
    unfold checkPath at h
    cases hf : (neighborMoves b).find? (fun q => q.1 == m) with
    | none => rw [hf] at h; cases h
    | some q =>
      rw [hf] at h
      have hmem := List.mem_of_find?_eq_some hf
      have hpred := List.find?_some hf
      rw [beq_iff_eq] at hpred
      have hstep : (m, q.2) ∈ neighborMoves b := by
        rw [← hpred]
        simpa using hmem
      have htail := ih h
      have hone : PathTo b [m] q.2 := by
        have hnil : PathTo b [] b := PathTo.nil
        have := PathTo.snoc hnil hstep
        simpa using this
      simpa using hone.append htail

theorem exists_minDist {root target : Board} (h : ReachableBoard root target) :
    ∃ d, MinDist root target d := by
  classical
  obtain ⟨p, hp⟩ := h
  have hex : ∃ n, ∃ q, PathTo root q target ∧ q.length = n := ⟨p.length, p, hp, rfl⟩
  refine ⟨Nat.find hex, Nat.find_spec hex, ?_⟩
  intro q hq
  exact Nat.find_min' hex ⟨q, hq, rfl⟩

theorem minDist_unique {root target : Board} {d1 d2 : Nat}
    (h1 : MinDist root target d1) (h2 : MinDist root target d2) : d1 = d2 := by
  obtain ⟨⟨p1, hp1, hl1⟩, hmin1⟩ := h1
  obtain ⟨⟨p2, hp2, hl2⟩, hmin2⟩ := h2
  have e1 := hmin1 p2 hp2
  have e2 := hmin2 p1 hp1
  omega

/-! ## Puzzle state accessors -/

theorem setH_board (s : PuzzleState) (v : Nat) : (s.setH v).board = s.board := by
  cases s; rfl

theorem setH_parent (s : PuzzleState) (v : Nat) : (s.setH v).parent = s.parent := by
  cases s; rfl

theorem setH_move (s : PuzzleState) (v : Nat) : (s.setH v).move = s.move := by
  cases s; rfl

theorem setH_g (s : PuzzleState) (v : Nat) : (s.setH v).g = s.g := by
  cases s; rfl

theorem setH_h (s : PuzzleState) (v : Nat) : (s.setH v).h = v := by
  cases s; rfl

theorem setH_f (s : PuzzleState) (v : Nat) : (s.setH v).f = s.f := by
  cases s; rfl

theorem setF_board (s : PuzzleState) (v : Nat) : (s.setF v).board = s.board := by
  cases s; rfl

theorem setF_g (s : PuzzleState) (v : Nat) : (s.setF v).g = s.g := by
  cases s; rfl

theorem setF_h (s : PuzzleState) (v : Nat) : (s.setF v).h = s.h := by
  cases s; rfl

theorem setF_f (s : PuzzleState) (v : Nat) : (s.setF v).f = v := by
  cases s; rfl

theorem reconstructPath_setH (s : PuzzleState) (v : Nat) :
    reconstructPath (s.setH v) = reconstructPath s := by
  cases s with
  | mk b p m g h f => cases p <;> rfl

theorem reconstructPath_setF (s : PuzzleState) (v : Nat) :
    reconstructPath (s.setF v) = reconstructPath s := by
  cases s with
  | mk b p m g h f => cases p <;> rfl

theorem getId_setH (s : PuzzleState) (v : Nat) : (s.setH v).getId = s.getId := by
  cases s; rfl

theorem getId_setF (s : PuzzleState) (v : Nat) : (s.setF v).getId = s.getId := by
  cases s; rfl

theorem make_board (b : Board) (p : Option PuzzleState) (m : Option Move) :
    (PuzzleState.make b p m).board = b := rfl

theorem make_child_g (b : Board) (s : PuzzleState) (m : Option Move) :
    (PuzzleState.make b (some s) m).g = s.g + 1 := rfl

theorem make_child_h (b : Board) (s : PuzzleState) (m : Option Move) :
    (PuzzleState.make b (some s) m).h = 0 := rfl

theorem make_child_f (b : Board) (s : PuzzleState) (m : Option Move) :
    (PuzzleState.make b (some s) m).f = 0 := rfl

theorem reconstructPath_make_child (b : Board) (s : PuzzleState) (m : Move) :
    reconstructPath (PuzzleState.make b (some s) (some m)) =
      reconstructPath s ++ [m] := rfl

theorem reconstructPath_make_root (b : Board) :
    reconstructPath (PuzzleState.make b none none) = [] := rfl

theorem isGoal_iff (s : PuzzleState) : s.isGoal = true ↔ s.board.flatten = goalFlat := by
  unfold PuzzleState.isGoal PuzzleState.getId
  rw [beq_iff_eq]

theorem mem_getNeighbors {s n : PuzzleState} (h : n ∈ s.getNeighbors) :
    ∃ m b', (m, b') ∈ neighborMoves s.board ∧
      n = PuzzleState.make b' (some s) (some m) := by
  unfold PuzzleState.getNeighbors at h
  rw [List.mem_map] at h
  obtain ⟨q, hq, rfl⟩ := h
  exact ⟨q.1, q.2, by simpa using hq, rfl⟩

/-! ## Lineage invariant -/

theorem goodState_root {root : Board} (hwf : WellFormedBoard root) :
    GoodState root (PuzzleState.make root none none) := by
  refine ⟨hwf, ?_, rfl⟩
  rw [reconstructPath_make_root]
  exact .nil

theorem goodState_neighbor {root : Board} {s n : PuzzleState} (hs : GoodState root s)
    (h : n ∈ s.getNeighbors) : GoodState root n := by
  obtain ⟨m, b', hmb, rfl⟩ := mem_getNeighbors h
  obtain ⟨hwf, hpath, hg⟩ := hs
  refine ⟨wf_of_neighbor hwf hmb, ?_, ?_⟩
  · rw [reconstructPath_make_child, make_board]
    exact PathTo.snoc hpath hmb
  · rw [reconstructPath_make_child, make_child_g, List.length_append, hg]
    rfl

theorem goodState_setH {root : Board} {s : PuzzleState} (hs : GoodState root s)
    (v : Nat) : GoodState root (s.setH v) := by
  obtain ⟨hwf, hpath, hg⟩ := hs
  exact ⟨by rwa [setH_board], by rwa [reconstructPath_setH, setH_board],
    by rwa [setH_g, reconstructPath_setH]⟩

theorem goodState_setF {root : Board} {s : PuzzleState} (hs : GoodState root s)
    (v : Nat) : GoodState root (s.setF v) := by
  obtain ⟨hwf, hpath, hg⟩ := hs
  exact ⟨by rwa [setF_board], by rwa [reconstructPath_setF, setF_board],
    by rwa [setF_g, reconstructPath_setF]⟩

/-! ## Ordered insertion and push loops: membership -/

theorem findIdx?_bounds {α : Type} {p : α → Bool} :
    ∀ {l : List α} {k i : Nat}, l.findIdx? p k = some i → k ≤ i ∧ i - k < l.length := by
  intro l
  induction l with
  | nil => intro k i h; rw [List.findIdx?_nil] at h; cases h
  | cons x t ih =>
    intro k i h
    rw [List.findIdx?_cons] at h
    by_cases hp : p x = true
    · rw [if_pos hp] at h
      cases h
      simp
    · rw [if_neg hp] at h
      obtain ⟨h1, h2⟩ := ih h
      refine ⟨by omega, ?_⟩
      rw [List.length_cons]
      omega

theorem findIdx?_lt_length {α : Type} {p : α → Bool} {l : List α} {i : Nat}
    (h : l.findIdx? p = some i) : i < l.length := by
  have := findIdx?_bounds h
  omega

theorem mem_orderedInsert {key : PuzzleState → Nat} {fr : List PuzzleState}
    {n s : PuzzleState} :
    s ∈ orderedInsert key fr n ↔ s ∈ fr ∨ s = n := by
  unfold orderedInsert
  cases hf : fr.findIdx? (fun t => key t > key n) with
  | none => simp [List.mem_append]
  | some i =>
    have hi : i ≤ fr.length := Nat.le_of_lt (findIdx?_lt_length hf)
    rw [List.mem_insertIdx hi]
    tauto

theorem mem_bfsPush : ∀ {ns fr : List PuzzleState} {ex : ExploredSet} {s : PuzzleState},
    s ∈ (bfsPush ns fr ex).1 → s ∈ fr ∨ s ∈ ns := by
  intro ns
  induction ns with
  | nil => intro fr ex s h; exact Or.inl h
  | cons n t ih =>
    intro fr ex s h
    unfold bfsPush at h
    by_cases hm : n.getId ∈ ex
    · rw [if_pos hm] at h
      rcases ih h with h1 | h1
      · exact Or.inl h1
      · exact Or.inr (List.mem_cons_of_mem _ h1)
    · rw [if_neg hm] at h
      rcases ih h with h1 | h1
      · rcases List.mem_append.mp h1 with h2 | h2
        · exact Or.inl h2
        · exact Or.inr (by simp at h2; simp [h2])
      · exact Or.inr (List.mem_cons_of_mem _ h1)

theorem mem_bestFirstPush (heuristic : PuzzleState → Nat) :
    ∀ {ns fr : List PuzzleState} {ex : ExploredSet} {s : PuzzleState},
      s ∈ bestFirstPush heuristic ns fr ex →
      s ∈ fr ∨ ∃ n ∈ ns, s = n.setH (heuristic n) := by
  intro ns
  induction ns with
  | nil => intro fr ex s h; exact Or.inl h
  | cons n t ih =>
    intro fr ex s h
    unfold bestFirstPush at h
    by_cases hm : n.getId ∈ ex
    · rw [if_pos hm] at h
      rcases ih h with h1 | ⟨n2, hn2, he⟩
      · exact Or.inl h1
      · exact Or.inr ⟨n2, List.mem_cons_of_mem _ hn2, he⟩
    · rw [if_neg hm] at h
      rcases ih h with h1 | ⟨n2, hn2, he⟩
      · rcases mem_orderedInsert.mp h1 with h2 | h2
        · exact Or.inl h2
        · exact Or.inr ⟨n, by simp, h2⟩
      · exact Or.inr ⟨n2, List.mem_cons_of_mem _ hn2, he⟩

theorem mem_aStarPush (heuristic : PuzzleState → Nat) :
    ∀ {ns fr : List PuzzleState} {ex : ExploredSet} {s : PuzzleState},
      s ∈ aStarPush heuristic ns fr ex →
      s ∈ fr ∨ ∃ n ∈ ns,
        s = (n.setH (heuristic n)).setF
          ((n.setH (heuristic n)).g + (n.setH (heuristic n)).h) := by
  intro ns
  induction ns with
  | nil => intro fr ex s h; exact Or.inl h
  | cons n t ih =>
    intro fr ex s h
    unfold aStarPush at h
    by_cases hm : n.getId ∈ ex
    · rw [if_pos hm] at h
      rcases ih h with h1 | ⟨n2, hn2, he⟩
      · exact Or.inl h1
      · exact Or.inr ⟨n2, List.mem_cons_of_mem _ hn2, he⟩
    · rw [if_neg hm] at h
      rcases ih h with h1 | ⟨n2, hn2, he⟩
      · rcases mem_orderedInsert.mp h1 with h2 | h2
        · exact Or.inl h2
        · exact Or.inr ⟨n, by simp, h2⟩
      · exact Or.inr ⟨n2, List.mem_cons_of_mem _ hn2, he⟩

/-! ## Step unfolding lemmas -/

theorem runLoop_done {step : SearchConfig → StepOut} {fuel : Nat} {c : SearchConfig}
    {r : Option (List Move)} (h : step c = .done r) :
    runLoop step (fuel + 1) c = some r := by
  rw [show runLoop step (fuel + 1) c =
    (match step c with
     | .done r => some r
     | .next c1 => runLoop step fuel c1) from rfl, h]

theorem runLoop_next {step : SearchConfig → StepOut} {fuel : Nat} {c c1 : SearchConfig}
    (h : step c = .next c1) :
    runLoop step (fuel + 1) c = runLoop step fuel c1 := by
  rw [show runLoop step (fuel + 1) c =
    (match step c with
     | .done r => some r
     | .next c1 => runLoop step fuel c1) from rfl, h]

theorem bfsStep_nil (ex : ExploredSet) : bfsStep ⟨[], ex⟩ = .done none := rfl

theorem bfsStep_goal {s : PuzzleState} (rest : List PuzzleState) (ex : ExploredSet)
    (hg : s.isGoal = true) :
    bfsStep ⟨s :: rest, ex⟩ = .done (some (reconstructPath s)) := by
  rw [show bfsStep ⟨s :: rest, ex⟩ =
    (if s.isGoal = true then StepOut.done (some (reconstructPath s))
     else
       StepOut.next ⟨(bfsPush s.getNeighbors rest (ex.insert s.getId)).1,
         (bfsPush s.getNeighbors rest (ex.insert s.getId)).2⟩) from rfl, if_pos hg]

theorem bfsStep_expand {s : PuzzleState} (rest : List PuzzleState) (ex : ExploredSet)
    (hg : ¬s.isGoal = true) :
    bfsStep ⟨s :: rest, ex⟩ =
      .next ⟨(bfsPush s.getNeighbors rest (ex.insert s.getId)).1,
        (bfsPush s.getNeighbors rest (ex.insert s.getId)).2⟩ := by
  rw [show bfsStep ⟨s :: rest, ex⟩ =
    (if s.isGoal = true then StepOut.done (some (reconstructPath s))
     else
       StepOut.next ⟨(bfsPush s.getNeighbors rest (ex.insert s.getId)).1,
         (bfsPush s.getNeighbors rest (ex.insert s.getId)).2⟩) from rfl, if_neg hg]

theorem bestFirstStep_nil (heuristic : PuzzleState → Nat) (ex : ExploredSet) :
    bestFirstStep heuristic ⟨[], ex⟩ = .done none := rfl

theorem bestFirstStep_goal (heuristic : PuzzleState → Nat) {s : PuzzleState}
    (rest : List PuzzleState) (ex : ExploredSet) (hg : s.isGoal = true) :
    bestFirstStep heuristic ⟨s :: rest, ex⟩ = .done (some (reconstructPath s)) := by
  rw [show bestFirstStep heuristic ⟨s :: rest, ex⟩ =
    (if s.isGoal = true then StepOut.done (some (reconstructPath s))
     else
       StepOut.next ⟨bestFirstPush heuristic s.getNeighbors rest (ex.insert s.getId),
         ex.insert s.getId⟩) from rfl, if_pos hg]

theorem bestFirstStep_expand (heuristic : PuzzleState → Nat) {s : PuzzleState}
    (rest : List PuzzleState) (ex : ExploredSet) (hg : ¬s.isGoal = true) :
    bestFirstStep heuristic ⟨s :: rest, ex⟩ =
      .next ⟨bestFirstPush heuristic s.getNeighbors rest (ex.insert s.getId),
        ex.insert s.getId⟩ := by
  rw [show bestFirstStep heuristic ⟨s :: rest, ex⟩ =
    (if s.isGoal = true then StepOut.done (some (reconstructPath s))
     else
       StepOut.next ⟨bestFirstPush heuristic s.getNeighbors rest (ex.insert s.getId),
         ex.insert s.getId⟩) from rfl, if_neg hg]

theorem aStarStep_nil (heuristic : PuzzleState → Nat) (ex : ExploredSet) :
    aStarStep heuristic ⟨[], ex⟩ = .done none := rfl

theorem aStarStep_goal (heuristic : PuzzleState → Nat) {s : PuzzleState}
    (rest : List PuzzleState) (ex : ExploredSet) (hg : s.isGoal = true) :
    aStarStep heuristic ⟨s :: rest, ex⟩ = .done (some (reconstructPath s)) := by
  rw [show aStarStep heuristic ⟨s :: rest, ex⟩ =
    (if s.isGoal = true then StepOut.done (some (reconstructPath s))
     else
       StepOut.next ⟨aStarPush heuristic s.getNeighbors rest (ex.insert s.getId),
         ex.insert s.getId⟩) from rfl, if_pos hg]

theorem aStarStep_expand (heuristic : PuzzleState → Nat) {s : PuzzleState}
    (rest : List PuzzleState) (ex : ExploredSet) (hg : ¬s.isGoal = true) :
    aStarStep heuristic ⟨s :: rest, ex⟩ =
      .next ⟨aStarPush heuristic s.getNeighbors rest (ex.insert s.getId),
        ex.insert s.getId⟩ := by
  rw [show aStarStep heuristic ⟨s :: rest, ex⟩ =
    (if s.isGoal = true then StepOut.done (some (reconstructPath s))
     else
       StepOut.next ⟨aStarPush heuristic s.getNeighbors rest (ex.insert s.getId),
         ex.insert s.getId⟩) from rfl, if_neg hg]

/-! ## Soundness of returned paths (claim C1 machinery) -/

theorem goal_state_board {s : PuzzleState} (hwf : WellFormedBoard s.board)
    (hg : s.isGoal = true) : s.board = goalBoard := by
  rw [isGoal_iff] at hg
  exact flatten_inj hwf.1 (boardShape_explicit 1 2 3 4 5 6 7 8 0) hg

theorem bfs_sound_aux {root : Board} :
    ∀ (fuel : Nat) (c : SearchConfig)
      (hinv : ∀ s ∈ c.frontier, GoodState root s) {p : List Move},
      runLoop bfsStep fuel c = some (some p) →
      PathTo root p goalBoard ∧
        ∃ s, GoodState root s ∧ s.isGoal = true ∧ p = reconstructPath s := by
  intro fuel
  induction fuel with
  | zero => intro c hinv p h; cases h
  | succ fuel ih =>
    intro c hinv p h
    obtain ⟨fr, ex⟩ := c
    cases fr with
    | nil =>
      rw [runLoop_done (bfsStep_nil ex)] at h
      simp at h
    | cons s rest =>
      by_cases hg : s.isGoal = true
      · rw [runLoop_done (bfsStep_goal rest ex hg)] at h
        simp only [Option.some.injEq] at h
        subst h
        have hs := hinv s (by simp)
        have hb : s.board = goalBoard := goal_state_board hs.1 hg
        exact ⟨hb ▸ hs.2.1, s, hs, hg, rfl⟩
      · rw [runLoop_next (bfsStep_expand rest ex hg)] at h
        apply ih _ _ h
        intro t ht
        rcases mem_bfsPush ht with h1 | h1
        · exact hinv t (List.mem_cons_of_mem _ h1)
        · exact goodState_neighbor (hinv s (by simp)) h1

theorem bestFirst_sound_aux {root : Board} (heuristic : PuzzleState → Nat) :
    ∀ (fuel : Nat) (c : SearchConfig)
      (hinv : ∀ s ∈ c.frontier, GoodState root s) {p : List Move},
      runLoop (bestFirstStep heuristic) fuel c = some (some p) →
      PathTo root p goalBoard ∧
        ∃ s, GoodState root s ∧ s.isGoal = true ∧ p = reconstructPath s := by
  intro fuel
  induction fuel with
  | zero => intro c hinv p h; cases h
  | succ fuel ih =>
    intro c hinv p h
    obtain ⟨fr, ex⟩ := c
    cases fr with
    | nil =>
      rw [runLoop_done (bestFirstStep_nil heuristic ex)] at h
      simp at h
    | cons s rest =>
      by_cases hg : s.isGoal = true
      · rw [runLoop_done (bestFirstStep_goal heuristic rest ex hg)] at h
        simp only [Option.some.injEq] at h
        subst h
        have hs := hinv s (by simp)
        have hb : s.board = goalBoard := goal_state_board hs.1 hg
        exact ⟨hb ▸ hs.2.1, s, hs, hg, rfl⟩
      · rw [runLoop_next (bestFirstStep_expand heuristic rest ex hg)] at h
        apply ih _ _ h
        intro t ht
        rcases mem_bestFirstPush heuristic ht with h1 | ⟨n, hn, rfl⟩
        · exact hinv t (List.mem_cons_of_mem _ h1)
        · exact goodState_setH (goodState_neighbor (hinv s (by simp)) hn) _

theorem aStar_sound_aux {root : Board} (heuristic : PuzzleState → Nat) :
    ∀ (fuel : Nat) (c : SearchConfig)
      (hinv : ∀ s ∈ c.frontier, GoodState root s) {p : List Move},
      runLoop (aStarStep heuristic) fuel c = some (some p) →
      PathTo root p goalBoard ∧
        ∃ s, GoodState root s ∧ s.isGoal = true ∧ p = reconstructPath s := by
  intro fuel
  induction fuel with
  | zero => intro c hinv p h; cases h
  | succ fuel ih =>
    intro c hinv p h
    obtain ⟨fr, ex⟩ := c
    cases fr with
    | nil =>
      rw [runLoop_done (aStarStep_nil heuristic ex)] at h
      simp at h
    | cons s rest =>
      by_cases hg : s.isGoal = true
      · rw [runLoop_done (aStarStep_goal heuristic rest ex hg)] at h
        simp only [Option.some.injEq] at h
        subst h
        have hs := hinv s (by simp)
        have hb : s.board = goalBoard := goal_state_board hs.1 hg
        exact ⟨hb ▸ hs.2.1, s, hs, hg, rfl⟩
      · rw [runLoop_next (aStarStep_expand heuristic rest ex hg)] at h
        apply ih _ _ h
        intro t ht
        rcases mem_aStarPush heuristic ht with h1 | ⟨n, hn, rfl⟩
        · exact hinv t (List.mem_cons_of_mem _ h1)
        · exact goodState_setF
            (goodState_setH (goodState_neighbor (hinv s (by simp)) hn) _) _

theorem initConfig_inv {root : Board} (hwf : WellFormedBoard root) :
    ∀ s ∈ (initConfig (PuzzleState.make root none none)).frontier, GoodState root s := by
  intro s hs
  simp only [initConfig, List.mem_singleton] at hs
  subst hs
  exact goodState_root hwf

/-- C1: for every well-formed 3x3 board (integers 0-8 each appearing exactly
once), if bfs, bestFirstSearch, or aStar returns a non-null move sequence,
then applying the moves to the input board in order — each move `[dx,dy]`
sliding the tile at `(blankRow+dx, blankCol+dy)` into the blank's cell —
yields exactly the goal board `[[1,2,3],[4,5,6],[7,8,0]]`. -/
theorem C1_returned_paths_reach_goal (puzzle : Board)
    (hwf : WellFormedBoard puzzle) :
    (∀ fuel p, bfs puzzle fuel = some (some p) →
      applyMoves puzzle p = goalBoard) ∧
    (∀ heuristic fuel p, bestFirstSearch puzzle heuristic fuel = some (some p) →
      applyMoves puzzle p = goalBoard) ∧
    (∀ heuristic fuel p, aStar puzzle heuristic fuel = some (some p) →
      applyMoves puzzle p = goalBoard) := by
  refine ⟨?_, ?_, ?_⟩
  · intro fuel p h
    unfold bfs at h
    exact (bfs_sound_aux fuel _ (initConfig_inv hwf) h).1.applyMoves_eq
  · intro heuristic fuel p h
    unfold bestFirstSearch at h
    exact (bestFirst_sound_aux heuristic fuel _ (initConfig_inv hwf) h).1.applyMoves_eq
  · intro heuristic fuel p h
    unfold aStar at h
    exact (aStar_sound_aux heuristic fuel _ (initConfig_inv hwf) h).1.applyMoves_eq

/-- Witness for C1: the board one slide away from the goal is well-formed,
bfs solves it with the single move `[1,0]`, and applying that move yields the
goal board. -/
theorem C1_witness :
    WellFormedBoard [[1, 2, 3], [4, 5, 0], [7, 8, 6]] ∧
      bfs [[1, 2, 3], [4, 5, 0], [7, 8, 6]] 100 = some (some [(1, 0)]) ∧
      applyMoves [[1, 2, 3], [4, 5, 0], [7, 8, 6]] [(1, 0)] = goalBoard :=
  ⟨by decide, by decide,
    (C1_returned_paths_reach_goal _ (by decide)).1 100 [(1, 0)] (by decide)⟩

/-- C4: for every input board, two runs of the same algorithm with the same
heuristic selection produce identical results; in this pure embedding each
driver is a function of its inputs, so determinism is reflexivity. -/
theorem C4_deterministic :
    (∀ puzzle fuel, bfs puzzle fuel = bfs puzzle fuel) ∧
    (∀ puzzle heuristic fuel,
      bestFirstSearch puzzle heuristic fuel = bestFirstSearch puzzle heuristic fuel) ∧
    (∀ puzzle heuristic fuel,
      aStar puzzle heuristic fuel = aStar puzzle heuristic fuel) :=
  ⟨fun _ _ => rfl, fun _ _ _ => rfl, fun _ _ _ => rfl⟩

/-! ## Heuristic values (claims C9, C10) -/

theorem misplacedTerm (a K I J : Nat) (hK : K = 3 * I + J + 1) (hJ : J < 3) :
    (if (a != 0 && a != K) = true then 1 else 0) =
      (if (a != 0 && !((I == (a - 1) / 3) && (J == (a - 1) % 3))) = true
        then (1 : Nat) else 0) := by
  refine if_congr ?_ rfl rfl
  simp only [Bool.and_eq_true, bne_iff_ne, ne_eq, Bool.not_eq_true',
    Bool.and_eq_false_iff, beq_eq_false_iff_ne]
  omega

theorem hamming_eq_spec (s : PuzzleState) (hwf : WellFormedBoard s.board) :
    hammingDistance s = hammingSpec s.board := by
  obtain ⟨a₀, a₁, a₂, a₃, a₄, a₅, a₆, a₇, a₈, hb⟩ := boardShape_destruct hwf.1
  rw [hammingDistance, hammingSpec, hb, ← List.countP_eq_length_filter,
    ← List.countP_eq_length_filter]
  show List.countP _
      [(0, a₀), (1, a₁), (2, a₂), (3, a₃), (4, a₄), (5, a₅), (6, a₆), (7, a₇), (8, a₈)] =
    List.countP _ [(0,0),(0,1),(0,2),(1,0),(1,1),(1,2),(2,0),(2,1),(2,2)]
  simp only [List.countP_cons, List.countP_nil, cellD, List.getD_cons_zero,
    List.getD_cons_succ]
  rw [misplacedTerm a₀ 1 0 0 (by omega) (by omega),
    misplacedTerm a₁ 2 0 1 (by omega) (by omega),
    misplacedTerm a₂ 3 0 2 (by omega) (by omega),
    misplacedTerm a₃ 4 1 0 (by omega) (by omega),
    misplacedTerm a₄ 5 1 1 (by omega) (by omega),
    misplacedTerm a₅ 6 1 2 (by omega) (by omega),
    misplacedTerm a₆ 7 2 0 (by omega) (by omega),
    misplacedTerm a₇ 8 2 1 (by omega) (by omega),
    misplacedTerm a₈ 9 2 2 (by omega) (by omega)]

theorem foldl_add_eq_sum {α : Type} (f : α → Nat) :
    ∀ (l : List α) (n : Nat), l.foldl (fun d x => d + f x) n = n + (l.map f).sum := by
  intro l
  induction l with
  | nil => intro n; simp
  | cons x t ih =>
    intro n
    rw [List.foldl_cons, ih, List.map_cons, List.sum_cons]
    omega

theorem manhattan_eq_spec (s : PuzzleState) :
    manhattanDistance s = manhattanSpec s.board := by
  rw [manhattanDistance, manhattanSpec,
    foldl_add_eq_sum (fun p => manhattanTerm (cellD s.board p.1 p.2) p.1 p.2) cellIdx 0,
    Nat.zero_add]
  congr 1
  apply List.map_congr_left
  intro p hp
  rw [manhattanTerm]
  by_cases h0 : cellD s.board p.1 p.2 ≠ 0
  · rw [if_pos h0, if_pos h0]
    omega
  · rw [if_neg h0, if_neg h0]

theorem flat_goal_of_placed {l : List Nat} (hlen : l.length = 9)
    (hcount : l.count 0 = 1) (hlt : ∀ a ∈ l, a < 9)
    (hplaced : ∀ k a, l[k]? = some a → a = 0 ∨ a = k + 1) : l = goalFlat := by
  obtain ⟨a8, h8⟩ : ∃ a, l[8]? = some a := by
    rw [List.getElem?_eq_getElem (by omega)]
    exact ⟨_, rfl⟩
  have ha8 : a8 = 0 := by
    rcases hplaced 8 a8 h8 with h | h
    · exact h
    · have := hlt a8 (List.getElem?_mem h8)
      omega
  subst ha8
  have hk : ∀ k, k < 8 → l[k]? = some (k + 1) := by
    intro k hk8
    obtain ⟨a, hka⟩ : ∃ a, l[k]? = some a := by
      rw [List.getElem?_eq_getElem (by omega)]
      exact ⟨_, rfl⟩
    rcases hplaced k a hka with h | h
    · exfalso
      subst h
      have := two_le_count_of_two_pos (show k ≠ 8 by omega) hka h8
      omega
    · rw [hka, h]
  apply List.ext_getElem?
  intro n
  by_cases hn : n < 8
  · rw [hk n hn]
    interval_cases n <;> rfl
  · by_cases hn8 : n = 8
    · subst hn8
      rw [h8]
      rfl
    · rw [List.getElem?_eq_none (by omega),
        List.getElem?_eq_none (by show goalFlat.length ≤ n; rw [show goalFlat.length = 9 from rfl]; omega)]

theorem hamming_zero_flat {s : PuzzleState} (hwf : WellFormedBoard s.board)
    (h : hammingDistance s = 0) : s.board.flatten = goalFlat := by
  apply flat_goal_of_placed (flatten_length hwf.1) (count_zero_flatten hwf)
    (wf_entry_lt hwf)
  intro k a hka
  rw [hammingDistance, ← List.countP_eq_length_filter, List.countP_eq_zero] at h
  have hc := h (k, a) (List.mem_enum_iff_getElem?.mpr hka)
  simp only [Bool.and_eq_true, bne_iff_ne, ne_eq, not_and, Decidable.not_not] at hc
  by_cases h0 : a = 0
  · exact Or.inl h0
  · exact Or.inr (hc h0)

theorem manhattan_zero_flat {s : PuzzleState} (hwf : WellFormedBoard s.board)
    (h : manhattanDistance s = 0) : s.board.flatten = goalFlat := by
  apply flat_goal_of_placed (flatten_length hwf.1) (count_zero_flatten hwf)
    (wf_entry_lt hwf)
  intro k a hka
  have hk9 : k < 9 := by
    by_contra hk
    rw [List.getElem?_eq_none (by rw [flatten_length hwf.1]; omega)] at hka
    cases hka
  rw [manhattanDistance,
    foldl_add_eq_sum (fun p => manhattanTerm (cellD s.board p.1 p.2) p.1 p.2) cellIdx 0,
    Nat.zero_add, List.sum_eq_zero_iff] at h
  have hcell : ((k / 3 : Nat), (k % 3 : Nat)) ∈ cellIdx := mem_cellIdx.mpr ⟨by omega, by omega⟩
  have hterm := h _ (List.mem_map.mpr ⟨(k / 3, k % 3), hcell, rfl⟩)
  simp only at hterm
  rw [cellD_eq_flatten hwf.1 (by omega) (by omega)] at hterm
  rw [show 3 * (k / 3) + k % 3 = k by omega] at hterm
  have hgetD : s.board.flatten.getD k 0 = a := by
    have hq := getD_get? (l := s.board.flatten) (q := k)
      (by rw [flatten_length hwf.1]; omega) 0
    rw [hka] at hq
    exact (Option.some_inj.mp hq).symm
  rw [hgetD, manhattanTerm] at hterm
  by_cases h0 : a = 0
  · exact Or.inl h0
  · rw [if_pos h0] at hterm
    right
    omega

theorem board_eq_goal_of_flat {b : Board} (hb : BoardShape b)
    (h : b.flatten = goalFlat) : b = goalBoard :=
  flatten_inj hb (boardShape_explicit 1 2 3 4 5 6 7 8 0) h

/-- C9: for every state over a well-formed board, hammingDistance returns the
number of non-blank tiles not on their goal cell, and manhattanDistance the
sum over all non-blank tiles of the grid distance between current cell and
goal cell `((v-1) div 3, (v-1) mod 3)`; both results are non-negative
integers. -/
theorem C9_heuristic_values (s : PuzzleState) (hwf : WellFormedBoard s.board) :
    hammingDistance s = hammingSpec s.board ∧
    manhattanDistance s = manhattanSpec s.board ∧
    0 ≤ hammingDistance s ∧ 0 ≤ manhattanDistance s :=
  ⟨hamming_eq_spec s hwf, manhattan_eq_spec s, Nat.zero_le _, Nat.zero_le _⟩

/-- Witness for C9 at a concrete well-formed board one slide from the goal. -/
theorem C9_witness :
    WellFormedBoard [[1, 2, 3], [4, 5, 0], [7, 8, 6]] ∧
      hammingDistance (PuzzleState.make [[1, 2, 3], [4, 5, 0], [7, 8, 6]] none none) =
        hammingSpec [[1, 2, 3], [4, 5, 0], [7, 8, 6]] ∧
      manhattanDistance (PuzzleState.make [[1, 2, 3], [4, 5, 0], [7, 8, 6]] none none) =
        manhattanSpec [[1, 2, 3], [4, 5, 0], [7, 8, 6]] :=
  ⟨by decide,
    (C9_heuristic_values (PuzzleState.make [[1, 2, 3], [4, 5, 0], [7, 8, 6]] none none)
      (by decide)).1,
    (C9_heuristic_values (PuzzleState.make [[1, 2, 3], [4, 5, 0], [7, 8, 6]] none none)
      (by decide)).2.1⟩

/-- C10: for every state over a well-formed board, hammingDistance is 0
exactly when the board is the goal board, and likewise manhattanDistance;
hence the informed searches assign `h = 0` only to goal states. -/
theorem C10_zero_iff_goal (s : PuzzleState) (hwf : WellFormedBoard s.board) :
    (hammingDistance s = 0 ↔ s.board = goalBoard) ∧
    (manhattanDistance s = 0 ↔ s.board = goalBoard) := by
  constructor
  · constructor
    · intro h
      exact board_eq_goal_of_flat hwf.1 (hamming_zero_flat hwf h)
    · intro h
      rw [hammingDistance, h]
      rfl
  · constructor
    · intro h
      exact board_eq_goal_of_flat hwf.1 (manhattan_zero_flat hwf h)
    · intro h
      rw [manhattanDistance, h]
      rfl

/-- Witness for C10 at the goal board and at a non-goal well-formed board. -/
theorem C10_witness :
    WellFormedBoard goalBoard ∧
      hammingDistance (PuzzleState.make goalBoard none none) = 0 ∧
      WellFormedBoard [[1, 2, 3], [4, 5, 0], [7, 8, 6]] ∧
      manhattanDistance (PuzzleState.make [[1, 2, 3], [4, 5, 0], [7, 8, 6]] none none) ≠ 0 :=
  ⟨by decide,
    ((C10_zero_iff_goal (PuzzleState.make goalBoard none none) (by decide)).1).mpr rfl,
    by decide,
    fun h =>
      by cases ((C10_zero_iff_goal
          (PuzzleState.make [[1, 2, 3], [4, 5, 0], [7, 8, 6]] none none)
          (by decide)).2).mp h⟩

/-! ## Successor generation (claims C7, C8) -/

theorem filterMap_ite {α β : Type} (p : α → Prop) [DecidablePred p] (g : α → β) :
    ∀ l : List α, l.filterMap (fun a => if p a then some (g a) else none) =
      (l.filter fun a => decide (p a)).map g := by
  intro l
  induction l with
  | nil => rfl
  | cons x t ih =>
    rw [List.filterMap_cons, List.filter_cons]
    by_cases hx : p x
    · rw [if_pos hx, if_pos (by simpa using hx), List.map_cons, ih]
    · rw [if_neg hx, if_neg (by simpa using hx), ih]

theorem neighborMoves_eq_filter {b : Board} {x y : Nat}
    (hz : boardFindZero b = some (x, y)) :
    neighborMoves b = ((moveTable.filter fun m => decide (moveInBounds x y m)).map
      fun m => (m, swapCells b x y ((x : Int) + m.1).toNat ((y : Int) + m.2).toNat)) := by
  unfold neighborMoves
  rw [hz]
  exact filterMap_ite (moveInBounds x y)
    (fun m => (m, swapCells b x y ((x : Int) + m.1).toNat ((y : Int) + m.2).toNat))
    moveTable

/-- C7: for every state over a well-formed board, getNeighbors returns
exactly one child per in-bounds cardinal move of the blank — 2 children with
the blank in a corner, 3 on an edge, 4 in the center — and each child's board
is the parent's with the blank and the moved-onto cell swapped, its parent is
the input state, its move is the delta used, its `g` is the parent's `g`
plus 1, and its `h` and `f` are 0. -/
theorem C7_getNeighbors (s : PuzzleState) (hwf : WellFormedBoard s.board) :
    ∃ x y, boardFindZero s.board = some (x, y) ∧ x < 3 ∧ y < 3 ∧
      s.getNeighbors.length =
        (if (x = 0 ∨ x = 2) ∧ (y = 0 ∨ y = 2) then 2
          else if x = 1 ∧ y = 1 then 4 else 3) ∧
      s.getNeighbors.map PuzzleState.move =
        (moveTable.filter fun m => decide (moveInBounds x y m)).map some ∧
      ∀ n ∈ s.getNeighbors, n.parent = some s ∧ n.g = s.g + 1 ∧ n.h = 0 ∧ n.f = 0 ∧
        ∃ m, n.move = some m ∧ m ∈ moveTable ∧ moveInBounds x y m ∧
          n.board = swapCells s.board x y ((x : Int) + m.1).toNat ((y : Int) + m.2).toNat := by
  obtain ⟨x, y, hz, hx, hy, _⟩ := boardFindZero_spec hwf
  refine ⟨x, y, hz, hx, hy, ?_, ?_, ?_⟩
  · rw [PuzzleState.getNeighbors, List.length_map, neighborMoves_eq_filter hz,
      List.length_map]
    interval_cases x <;> interval_cases y <;>
      simp only [moveTable, moveInBounds, List.filter] <;> decide
  · rw [PuzzleState.getNeighbors, neighborMoves_eq_filter hz, List.map_map,
      List.map_map]
    apply List.map_congr_left
    intro m hm
    rfl
  · intro n hn
    obtain ⟨m, b', hmb, rfl⟩ := mem_getNeighbors hn
    obtain ⟨hm, hib, hb'⟩ := (mem_neighborMoves_iff hz).mp hmb
    exact ⟨rfl, rfl, rfl, rfl, m, rfl, hm, hib, by rw [make_board, hb']⟩

/-- Witness for C7 at a concrete well-formed board with a center blank. -/
theorem C7_witness :
    WellFormedBoard [[1, 2, 3], [4, 0, 5], [7, 8, 6]] ∧
      ∃ x y, boardFindZero ((PuzzleState.make [[1, 2, 3], [4, 0, 5], [7, 8, 6]] none none).board) = some (x, y) ∧
        x < 3 ∧ y < 3 ∧
        (PuzzleState.make [[1, 2, 3], [4, 0, 5], [7, 8, 6]] none none).getNeighbors.length =
          (if (x = 0 ∨ x = 2) ∧ (y = 0 ∨ y = 2) then 2
            else if x = 1 ∧ y = 1 then 4 else 3) :=
  ⟨by decide, by
    obtain ⟨x, y, hz, hx, hy, hlen, _, _⟩ :=
      C7_getNeighbors (PuzzleState.make [[1, 2, 3], [4, 0, 5], [7, 8, 6]] none none)
        (by decide)
    exact ⟨x, y, hz, hx, hy, hlen⟩⟩

/-- C8: no successor of a successor's successor has the board of the
starting state: the blank's row-plus-column parity flips on every slide, so a
board three slides away never coincides with the starting board. -/
theorem C8_no_grandparent_board {gp : PuzzleState} (hwf : WellFormedBoard gp.board)
    {p s t : PuzzleState} (hp : p ∈ gp.getNeighbors) (hs : s ∈ p.getNeighbors)
    (ht : t ∈ s.getNeighbors) : t.board ≠ gp.board := by
  obtain ⟨m1, b1, hm1, rfl⟩ := mem_getNeighbors hp
  obtain ⟨m2, b2, hm2, rfl⟩ := mem_getNeighbors hs
  obtain ⟨m3, b3, hm3, rfl⟩ := mem_getNeighbors ht
  rw [make_board] at hm2 hm3 ⊢
  obtain ⟨x0, y0, x1, y1, hz0, _, _, _, _, _, _, _, _, _, hpar1, _, _, hwf1, hz1, _, _⟩ :=
    neighbor_props hwf hm1
  obtain ⟨x1a, y1a, x2, y2, hz1a, _, _, _, _, _, _, _, _, _, hpar2, _, _, hwf2, hz2, _, _⟩ :=
    neighbor_props hwf1 hm2
  obtain ⟨x2a, y2a, x3, y3, hz2a, _, _, _, _, _, _, _, _, _, hpar3, _, _, hwf3, hz3, _, _⟩ :=
    neighbor_props hwf2 hm3
  rw [hz1] at hz1a
  rw [hz2] at hz2a
  intro heq
  rw [heq, hz0] at hz3
  simp only [Option.some.injEq, Prod.mk.injEq] at hz1a hz2a hz3
  obtain ⟨rfl, rfl⟩ := hz1a
  obtain ⟨rfl, rfl⟩ := hz2a
  obtain ⟨rfl, rfl⟩ := hz3
  omega

/-- Witness for C8 along a concrete three-step successor chain out of the
goal board. -/
theorem C8_witness :
    let gp := PuzzleState.make goalBoard none none
    let p := PuzzleState.make [[1,2,3],[4,5,6],[7,0,8]] (some gp) (some (0,-1))
    let s := PuzzleState.make goalBoard (some p) (some (0,1))
    let t := PuzzleState.make [[1,2,3],[4,5,6],[7,0,8]] (some s) (some (0,-1))
    WellFormedBoard gp.board ∧ p ∈ gp.getNeighbors ∧ s ∈ p.getNeighbors ∧
      t ∈ s.getNeighbors ∧ t.board ≠ gp.board := by
  intro gp p s t
  have hp : p ∈ gp.getNeighbors := List.getElem?_mem (rfl : gp.getNeighbors[0]? = some p)
  have hs : s ∈ p.getNeighbors := List.getElem?_mem (rfl : p.getNeighbors[0]? = some s)
  have ht : t ∈ s.getNeighbors := List.getElem?_mem (rfl : s.getNeighbors[0]? = some t)
  exact ⟨by decide, hp, hs, ht, C8_no_grandparent_board (by decide) hp hs ht⟩

/-! ## Run configurations (claims C5, C6) -/

theorem runConfigs_zero (step : SearchConfig → StepOut) (c : SearchConfig) :
    runConfigs step 0 c = some c := rfl

theorem runConfigs_done {step : SearchConfig → StepOut} {n : Nat} {c : SearchConfig}
    {r : Option (List Move)} (h : step c = .done r) :
    runConfigs step (n + 1) c = none := by
  rw [show runConfigs step (n + 1) c =
    (match step c with
     | .done _ => none
     | .next c1 => runConfigs step n c1) from rfl, h]

theorem runConfigs_next {step : SearchConfig → StepOut} {n : Nat} {c c1 : SearchConfig}
    (h : step c = .next c1) :
    runConfigs step (n + 1) c = runConfigs step n c1 := by
  rw [show runConfigs step (n + 1) c =
    (match step c with
     | .done _ => none
     | .next c1 => runConfigs step n c1) from rfl, h]

/-! ### BFS marks successors explored at insertion time (claim C5) -/

theorem bfsPush_explored_mono : ∀ {ns fr : List PuzzleState} {ex : ExploredSet}
    {id : List Nat}, id ∈ ex → id ∈ (bfsPush ns fr ex).2 := by
  intro ns
  induction ns with
  | nil => intro fr ex id h; exact h
  | cons n t ih =>
    intro fr ex id h
    unfold bfsPush
    by_cases hm : n.getId ∈ ex
    · rw [if_pos hm]
      exact ih h
    · rw [if_neg hm]
      exact ih (List.mem_insert_iff.mpr (Or.inr h))

theorem bfsPush_inv : ∀ {ns fr : List PuzzleState} {ex : ExploredSet},
    (fr.map PuzzleState.getId).Nodup →
    (∀ id ∈ fr.map PuzzleState.getId, id ∈ ex) →
    ((bfsPush ns fr ex).1.map PuzzleState.getId).Nodup ∧
      ∀ id ∈ (bfsPush ns fr ex).1.map PuzzleState.getId, id ∈ (bfsPush ns fr ex).2 := by
  intro ns
  induction ns with
  | nil => intro fr ex h1 h2; exact ⟨h1, h2⟩
  | cons n t ih =>
    intro fr ex h1 h2
    unfold bfsPush
    by_cases hm : n.getId ∈ ex
    · rw [if_pos hm]
      exact ih h1 h2
    · rw [if_neg hm]
      apply ih
      · rw [List.map_append]
        apply List.Nodup.append h1 (by simp)
        intro id hid1 hid2
        simp only [List.map_cons, List.map_nil, List.mem_singleton] at hid2
        exact hm (hid2 ▸ h2 id hid1)
      · intro id hid
        rw [List.map_append] at hid
        rcases List.mem_append.mp hid with h3 | h3
        · exact List.mem_insert_iff.mpr (Or.inr (h2 id h3))
        · simp only [List.map_cons, List.map_nil, List.mem_singleton] at h3
          exact List.mem_insert_iff.mpr (Or.inl h3)

theorem bfs_frontier_inv :
    ∀ (n : Nat) (c : SearchConfig),
      (c.frontier.map PuzzleState.getId).Nodup →
      (∀ id ∈ c.frontier.map PuzzleState.getId, id ∈ c.explored) →
      ∀ {c2 : SearchConfig}, runConfigs bfsStep n c = some c2 →
      (c2.frontier.map PuzzleState.getId).Nodup ∧
        ∀ id ∈ c2.frontier.map PuzzleState.getId, id ∈ c2.explored := by
  intro n
  induction n with
  | zero =>
    intro c h1 h2 c2 hc
    rw [runConfigs_zero] at hc
    cases hc
    exact ⟨h1, h2⟩
  | succ n ih =>
    intro c h1 h2 c2 hc
    obtain ⟨fr, ex⟩ := c
    cases fr with
    | nil =>
      rw [runConfigs_done (bfsStep_nil ex)] at hc
      cases hc
    | cons s rest =>
      by_cases hg : s.isGoal = true
      · rw [runConfigs_done (bfsStep_goal rest ex hg)] at hc
        cases hc
      · rw [runConfigs_next (bfsStep_expand rest ex hg)] at hc
        simp only [List.map_cons] at h1 h2
        have h1r : (rest.map PuzzleState.getId).Nodup := h1.of_cons
        have h2r : ∀ id ∈ rest.map PuzzleState.getId, id ∈ ex.insert s.getId :=
          fun id hid => List.mem_insert_iff.mpr (Or.inr (h2 id (List.mem_cons_of_mem _ hid)))
        obtain ⟨hn1, hn2⟩ := @bfsPush_inv s.getNeighbors _ _ h1r h2r
        exact ih _ hn1 hn2 hc

/-- C5: bfs marks every enqueued successor explored at insertion time, so at
every point of a bfs run the frontier has pairwise distinct board ids, each
already in the explored set once the run is underway; bestFirstSearch and
aStar mark only at expansion time, and their frontiers can hold two states
with the same id, exhibited here on concrete runs. -/
theorem C5_explored_marking :
    (∀ (puzzle : Board) (n : Nat) (c : SearchConfig),
      runConfigs bfsStep n (initConfig (PuzzleState.make puzzle none none)) = some c →
      (c.frontier.map PuzzleState.getId).Nodup ∧
        (1 ≤ n → ∀ id ∈ c.frontier.map PuzzleState.getId, id ∈ c.explored)) ∧
    (∃ (puzzle : Board) (n : Nat) (c : SearchConfig),
      WellFormedBoard puzzle ∧
      runConfigs (bestFirstStep manhattanDistance) n
        (initConfig (PuzzleState.make puzzle none none)) = some c ∧
      ¬(c.frontier.map PuzzleState.getId).Nodup) ∧
    (∃ (puzzle : Board) (n : Nat) (c : SearchConfig),
      WellFormedBoard puzzle ∧
      runConfigs (aStarStep manhattanDistance) n
        (initConfig (PuzzleState.make puzzle none none)) = some c ∧
      ¬(c.frontier.map PuzzleState.getId).Nodup) := by
  refine ⟨?_, ?_, ?_⟩
  · intro puzzle n c hc
    cases n with
    | zero =>
      rw [runConfigs_zero] at hc
      cases hc
      exact ⟨by simp [initConfig], by omega⟩
    | succ n =>
      set s0 := PuzzleState.make puzzle none none with hs0
      rw [show initConfig s0 = (⟨[s0], []⟩ : SearchConfig) from rfl] at hc
      by_cases hg : s0.isGoal = true
      · rw [runConfigs_done (bfsStep_goal [] [] hg)] at hc
        cases hc
      · rw [runConfigs_next (bfsStep_expand [] [] hg)] at hc
        have hbase := @bfsPush_inv s0.getNeighbors []
          (List.insert s0.getId []) (by simp) (by simp)
        have := bfs_frontier_inv n _ hbase.1 hbase.2 hc
        exact ⟨this.1, fun _ => this.2⟩
  · refine ⟨[[2,5,3],[4,1,6],[0,7,8]], 18,
      (runConfigs (bestFirstStep manhattanDistance) 18
        (initConfig (PuzzleState.make [[2,5,3],[4,1,6],[0,7,8]] none none))).getD
        ⟨[], []⟩, by decide, by rfl, by decide⟩
  · refine ⟨[[1,2,3],[0,4,8],[7,6,5]], 12,
      (runConfigs (aStarStep manhattanDistance) 12
        (initConfig (PuzzleState.make [[1,2,3],[0,4,8],[7,6,5]] none none))).getD
        ⟨[], []⟩, by decide, by rfl, by decide⟩

/-- Witness for C5's universally quantified bfs part, at a concrete run. -/
theorem C5_witness :
    runConfigs bfsStep 3 (initConfig
        (PuzzleState.make [[1,2,3],[4,0,5],[7,8,6]] none none)) =
      some ((runConfigs bfsStep 3 (initConfig
        (PuzzleState.make [[1,2,3],[4,0,5],[7,8,6]] none none))).getD ⟨[], []⟩) ∧
    (((runConfigs bfsStep 3 (initConfig
        (PuzzleState.make [[1,2,3],[4,0,5],[7,8,6]] none none))).getD
        ⟨[], []⟩).frontier.map PuzzleState.getId).Nodup := by
  refine ⟨by rfl, ?_⟩
  exact (C5_explored_marking.1 [[1,2,3],[4,0,5],[7,8,6]] 3 _ (by rfl)).1

/-! ### Frontier ordering of the informed searches (claim C6) -/

theorem orderedInsert_nil (key : PuzzleState → Nat) (n : PuzzleState) :
    orderedInsert key [] n = [n] := rfl

theorem orderedInsert_cons_gt {key : PuzzleState → Nat} {x n : PuzzleState}
    (h : key n < key x) (t : List PuzzleState) :
    orderedInsert key (x :: t) n = n :: x :: t := by
  unfold orderedInsert
  rw [List.findIdx?_cons, if_pos (by simpa using h)]
  simp

theorem orderedInsert_cons_le {key : PuzzleState → Nat} {x n : PuzzleState}
    (h : ¬key n < key x) (t : List PuzzleState) :
    orderedInsert key (x :: t) n = x :: orderedInsert key t n := by
  unfold orderedInsert
  rw [List.findIdx?_cons, if_neg (by simpa using h), List.findIdx?_succ]
  cases hf : t.findIdx? (fun s => key s > key n) with
  | none => rfl
  | some i => exact List.insertIdx_succ_cons t x n i

theorem orderedInsert_eq_takeWhile (key : PuzzleState → Nat) :
    ∀ (fr : List PuzzleState) (n : PuzzleState),
      orderedInsert key fr n =
        fr.takeWhile (fun s => !(key n < key s)) ++
          n :: fr.dropWhile (fun s => !(key n < key s)) := by
  intro fr
  induction fr with
  | nil => intro n; rfl
  | cons x t ih =>
    intro n
    by_cases h : key n < key x
    · rw [orderedInsert_cons_gt h, List.takeWhile_cons, List.dropWhile_cons,
        if_neg (by simpa using h), if_neg (by simpa using h)]
      rfl
    · rw [orderedInsert_cons_le h, List.takeWhile_cons, List.dropWhile_cons,
        if_pos (by simpa using h), if_pos (by simpa using h), ih]
      rfl

theorem orderedInsert_pairwise {key : PuzzleState → Nat} :
    ∀ {fr : List PuzzleState}, fr.Pairwise (fun a b => key a ≤ key b) →
      ∀ n : PuzzleState,
        (orderedInsert key fr n).Pairwise (fun a b => key a ≤ key b) := by
  intro fr
  induction fr with
  | nil =>
    intro _ n
    rw [orderedInsert_nil]
    exact List.pairwise_singleton _ _
  | cons x t ih =>
    intro hp n
    rcases List.pairwise_cons.mp hp with ⟨hx, ht⟩
    by_cases h : key n < key x
    · rw [orderedInsert_cons_gt h]
      refine List.pairwise_cons.mpr ⟨?_, hp⟩
      intro b hb
      rcases List.mem_cons.mp hb with rfl | hbt
      · omega
      · have := hx b hbt
        omega
    · rw [orderedInsert_cons_le h]
      refine List.pairwise_cons.mpr ⟨?_, ih ht n⟩
      intro b hb
      rcases mem_orderedInsert.mp hb with hbt | rfl
      · exact hx b hbt
      · omega

theorem bestFirstPush_pairwise (heuristic : PuzzleState → Nat) :
    ∀ {ns fr : List PuzzleState} {ex : ExploredSet},
      fr.Pairwise (fun a b => a.h ≤ b.h) →
      (bestFirstPush heuristic ns fr ex).Pairwise (fun a b => a.h ≤ b.h) := by
  intro ns
  induction ns with
  | nil => intro fr ex h; exact h
  | cons n t ih =>
    intro fr ex h
    unfold bestFirstPush
    by_cases hm : n.getId ∈ ex
    · rw [if_pos hm]
      exact ih h
    · rw [if_neg hm]
      exact ih (orderedInsert_pairwise h _)

theorem aStarPush_pairwise (heuristic : PuzzleState → Nat) :
    ∀ {ns fr : List PuzzleState} {ex : ExploredSet},
      fr.Pairwise (fun a b => a.f ≤ b.f) →
      (aStarPush heuristic ns fr ex).Pairwise (fun a b => a.f ≤ b.f) := by
  intro ns
  induction ns with
  | nil => intro fr ex h; exact h
  | cons n t ih =>
    intro fr ex h
    unfold aStarPush
    by_cases hm : n.getId ∈ ex
    · rw [if_pos hm]
      exact ih h
    · rw [if_neg hm]
      exact ih (orderedInsert_pairwise h _)

theorem bestFirst_sorted_inv (heuristic : PuzzleState → Nat) :
    ∀ (n : Nat) (c : SearchConfig), c.frontier.Pairwise (fun a b => a.h ≤ b.h) →
      ∀ {c2 : SearchConfig},
        runConfigs (bestFirstStep heuristic) n c = some c2 →
        c2.frontier.Pairwise (fun a b => a.h ≤ b.h) := by
  intro n
  induction n with
  | zero =>
    intro c h c2 hc
    rw [runConfigs_zero] at hc
    cases hc
    exact h
  | succ n ih =>
    intro c h c2 hc
    obtain ⟨fr, ex⟩ := c
    cases fr with
    | nil =>
      rw [runConfigs_done (bestFirstStep_nil heuristic ex)] at hc
      cases hc
    | cons s rest =>
      by_cases hg : s.isGoal = true
      · rw [runConfigs_done (bestFirstStep_goal heuristic rest ex hg)] at hc
        cases hc
      · rw [runConfigs_next (bestFirstStep_expand heuristic rest ex hg)] at hc
        exact ih _ (bestFirstPush_pairwise heuristic h.of_cons) hc

theorem aStar_sorted_inv (heuristic : PuzzleState → Nat) :
    ∀ (n : Nat) (c : SearchConfig), c.frontier.Pairwise (fun a b => a.f ≤ b.f) →
      ∀ {c2 : SearchConfig},
        runConfigs (aStarStep heuristic) n c = some c2 →
        c2.frontier.Pairwise (fun a b => a.f ≤ b.f) := by
  intro n
  induction n with
  | zero =>
    intro c h c2 hc
    rw [runConfigs_zero] at hc
    cases hc
    exact h
  | succ n ih =>
    intro c h c2 hc
    obtain ⟨fr, ex⟩ := c
    cases fr with
    | nil =>
      rw [runConfigs_done (aStarStep_nil heuristic ex)] at hc
      cases hc
    | cons s rest =>
      by_cases hg : s.isGoal = true
      · rw [runConfigs_done (aStarStep_goal heuristic rest ex hg)] at hc
        cases hc
      · rw [runConfigs_next (aStarStep_expand heuristic rest ex hg)] at hc
        exact ih _ (aStarPush_pairwise heuristic h.of_cons) hc

/-- C6: ordered insertion places a new state immediately before the first
frontier entry with a strictly greater key, after all entries with a less or
equal key (so equal keys keep insertion order); consequently the frontier of
bestFirstSearch stays sorted ascending by `h` and the frontier of aStar by
`f` at every point of every run, and the state removed by shift is a
minimum-key one. -/
theorem C6_frontier_ordering :
    (∀ (key : PuzzleState → Nat) (fr : List PuzzleState) (n : PuzzleState),
      orderedInsert key fr n =
        fr.takeWhile (fun s => !(key n < key s)) ++
          n :: fr.dropWhile (fun s => !(key n < key s))) ∧
    (∀ (puzzle : Board) (heuristic : PuzzleState → Nat) (n : Nat) (c : SearchConfig),
      runConfigs (bestFirstStep heuristic) n
        (initConfig (PuzzleState.make puzzle none none)) = some c →
      c.frontier.Pairwise (fun a b => a.h ≤ b.h) ∧
        ∀ s rest, c.frontier = s :: rest → ∀ t ∈ c.frontier, s.h ≤ t.h) ∧
    (∀ (puzzle : Board) (heuristic : PuzzleState → Nat) (n : Nat) (c : SearchConfig),
      runConfigs (aStarStep heuristic) n
        (initConfig (PuzzleState.make puzzle none none)) = some c →
      c.frontier.Pairwise (fun a b => a.f ≤ b.f) ∧
        ∀ s rest, c.frontier = s :: rest → ∀ t ∈ c.frontier, s.f ≤ t.f) := by
  refine ⟨orderedInsert_eq_takeWhile, ?_, ?_⟩
  · intro puzzle heuristic n c hc
    have hp := bestFirst_sorted_inv heuristic n _ (by simp [initConfig]) hc
    refine ⟨hp, ?_⟩
    intro s rest hfr t ht
    rw [hfr] at hp ht
    rcases List.mem_cons.mp ht with rfl | ht2
    · exact Nat.le_refl _
    · exact (List.pairwise_cons.mp hp).1 t ht2
  · intro puzzle heuristic n c hc
    have hp := aStar_sorted_inv heuristic n _ (by simp [initConfig]) hc
    refine ⟨hp, ?_⟩
    intro s rest hfr t ht
    rw [hfr] at hp ht
    rcases List.mem_cons.mp ht with rfl | ht2
    · exact Nat.le_refl _
    · exact (List.pairwise_cons.mp hp).1 t ht2

/-- Witness for C6 on a concrete insertion and a concrete run. -/
theorem C6_witness :
    (orderedInsert PuzzleState.h
        [PuzzleState.mk goalBoard none none 0 1 0, PuzzleState.mk goalBoard none none 0 3 0]
        (PuzzleState.mk goalBoard none none 0 2 0) =
      [PuzzleState.mk goalBoard none none 0 1 0].takeWhile
          (fun s => !((PuzzleState.mk goalBoard none none 0 2 0).h < s.h)) ++ [] ++
        [PuzzleState.mk goalBoard none none 0 1 0, PuzzleState.mk goalBoard none none 0 2 0,
          PuzzleState.mk goalBoard none none 0 3 0].drop 1 ∨
      orderedInsert PuzzleState.h
        [PuzzleState.mk goalBoard none none 0 1 0, PuzzleState.mk goalBoard none none 0 3 0]
        (PuzzleState.mk goalBoard none none 0 2 0) =
      [PuzzleState.mk goalBoard none none 0 1 0, PuzzleState.mk goalBoard none none 0 2 0,
        PuzzleState.mk goalBoard none none 0 3 0]) ∧
    ((runConfigs (bestFirstStep manhattanDistance) 2
        (initConfig (PuzzleState.make [[1,2,3],[4,0,5],[7,8,6]] none none))).getD
        ⟨[], []⟩).frontier.Pairwise (fun a b => a.h ≤ b.h) := by
  constructor
  · right
    rw [C6_frontier_ordering.1 PuzzleState.h]
    rfl
  · exact (C6_frontier_ordering.2.1 [[1,2,3],[4,0,5],[7,8,6]] manhattanDistance 2 _
      (by rfl)).1

/-! ## Termination and completeness (claim C3) -/

theorem bfsPush_frontier_mono : ∀ {ns fr : List PuzzleState} {ex : ExploredSet}
    {s : PuzzleState}, s ∈ fr → s ∈ (bfsPush ns fr ex).1 := by
  intro ns
  induction ns with
  | nil => intro fr ex s h; exact h
  | cons n t ih =>
    intro fr ex s h
    unfold bfsPush
    by_cases hm : n.getId ∈ ex
    · rw [if_pos hm]; exact ih h
    · rw [if_neg hm]; exact ih (List.mem_append.mpr (Or.inl h))

theorem bfsPush_covers : ∀ {ns fr : List PuzzleState} {ex : ExploredSet}
    {n : PuzzleState}, n ∈ ns → n.getId ∈ (bfsPush ns fr ex).2 := by
  intro ns
  induction ns with
  | nil => intro fr ex n h; simp at h
  | cons n2 t ih =>
    intro fr ex n h
    unfold bfsPush
    rcases List.mem_cons.mp h with rfl | h2
    · by_cases hm : n.getId ∈ ex
      · rw [if_pos hm]; exact bfsPush_explored_mono hm
      · rw [if_neg hm]
        exact bfsPush_explored_mono (List.mem_insert_iff.mpr (Or.inl rfl))
    · by_cases hm : n2.getId ∈ ex
      · rw [if_pos hm]; exact ih h2
      · rw [if_neg hm]; exact ih h2

theorem mem_bfsPush_explored : ∀ {ns fr : List PuzzleState} {ex : ExploredSet}
    {id : List Nat}, id ∈ (bfsPush ns fr ex).2 →
    id ∈ ex ∨ ∃ n ∈ ns, id = n.getId ∧ n ∈ (bfsPush ns fr ex).1 := by
  intro ns
  induction ns with
  | nil => intro fr ex id h; exact Or.inl h
  | cons n t ih =>
    intro fr ex id h
    unfold bfsPush at h ⊢
    by_cases hm : n.getId ∈ ex
    · rw [if_pos hm] at h ⊢
      rcases ih h with h1 | ⟨n2, hn2, he, hfr⟩
      · exact Or.inl h1
      · exact Or.inr ⟨n2, List.mem_cons_of_mem _ hn2, he, hfr⟩
    · rw [if_neg hm] at h ⊢
      rcases ih h with h1 | ⟨n2, hn2, he, hfr⟩
      · rcases List.mem_insert_iff.mp h1 with rfl | h2
        · exact Or.inr ⟨n, by simp,  rfl,
            bfsPush_frontier_mono (List.mem_append.mpr (Or.inr (by simp)))⟩
        · exact Or.inl h2
      · exact Or.inr ⟨n2, List.mem_cons_of_mem _ hn2, he, hfr⟩

theorem bestFirstPush_frontier_mono (heuristic : PuzzleState → Nat) :
    ∀ {ns fr : List PuzzleState} {ex : ExploredSet} {s : PuzzleState},
      s ∈ fr → s ∈ bestFirstPush heuristic ns fr ex := by
  intro ns
  induction ns with
  | nil => intro fr ex s h; exact h
  | cons n t ih =>
    intro fr ex s h
    unfold bestFirstPush
    by_cases hm : n.getId ∈ ex
    · rw [if_pos hm]; exact ih h
    · rw [if_neg hm]; exact ih (mem_orderedInsert.mpr (Or.inl h))

theorem bestFirstPush_covers (heuristic : PuzzleState → Nat) :
    ∀ {ns fr : List PuzzleState} {ex : ExploredSet} {n : PuzzleState}, n ∈ ns →
      n.getId ∈ ex ∨ ∃ s ∈ bestFirstPush heuristic ns fr ex, s.board = n.board := by
  intro ns
  induction ns with
  | nil => intro fr ex n h; simp at h
  | cons n2 t ih =>
    intro fr ex n h
    unfold bestFirstPush
    rcases List.mem_cons.mp h with rfl | h2
    · by_cases hm : n.getId ∈ ex
      · rw [if_pos hm]; exact Or.inl hm
      · rw [if_neg hm]
        refine Or.inr ⟨n.setH (heuristic n), ?_, setH_board n _⟩
        exact bestFirstPush_frontier_mono heuristic
          (mem_orderedInsert.mpr (Or.inr rfl))
    · by_cases hm : n2.getId ∈ ex
      · rw [if_pos hm]; exact ih h2
      · rw [if_neg hm]; exact ih h2

theorem aStarPush_frontier_mono (heuristic : PuzzleState → Nat) :
    ∀ {ns fr : List PuzzleState} {ex : ExploredSet} {s : PuzzleState},
      s ∈ fr → s ∈ aStarPush heuristic ns fr ex := by
  intro ns
  induction ns with
  | nil => intro fr ex s h; exact h
  | cons n t ih =>
    intro fr ex s h
    unfold aStarPush
    by_cases hm : n.getId ∈ ex
    · rw [if_pos hm]; exact ih h
    · rw [if_neg hm]; exact ih (mem_orderedInsert.mpr (Or.inl h))

theorem aStarPush_covers (heuristic : PuzzleState → Nat) :
    ∀ {ns fr : List PuzzleState} {ex : ExploredSet} {n : PuzzleState}, n ∈ ns →
      n.getId ∈ ex ∨ ∃ s ∈ aStarPush heuristic ns fr ex, s.board = n.board := by
  intro ns
  induction ns with
  | nil => intro fr ex n h; simp at h
  | cons n2 t ih =>
    intro fr ex n h
    unfold aStarPush
    rcases List.mem_cons.mp h with rfl | h2
    · by_cases hm : n.getId ∈ ex
      · rw [if_pos hm]; exact Or.inl hm
      · rw [if_neg hm]
        refine Or.inr ⟨(n.setH (heuristic n)).setF
          ((n.setH (heuristic n)).g + (n.setH (heuristic n)).h), ?_, ?_⟩
        · exact aStarPush_frontier_mono heuristic
            (mem_orderedInsert.mpr (Or.inr rfl))
        · rw [setF_board, setH_board]
    · by_cases hm : n2.getId ∈ ex
      · rw [if_pos hm]; exact ih h2
      · rw [if_neg hm]; exact ih h2

theorem searchInv_init {root : Board} (hwf : WellFormedBoard root) :
    SearchInv root (initConfig (PuzzleState.make root none none)) := by
  refine ⟨initConfig_inv hwf,
    Or.inr ⟨PuzzleState.make root none none, by simp [initConfig], rfl⟩, ?_⟩
  intro id hid
  simp [initConfig] at hid

theorem exhausted_not_reachable {root : Board} (hwf : WellFormedBoard root)
    {ex : ExploredSet} (hinv : SearchInv root ⟨[], ex⟩) :
    ¬ReachableBoard root goalBoard := by
  obtain ⟨_, hroot, hids⟩ := hinv
  have hrootex : root.flatten ∈ ex := by
    rcases hroot with h | ⟨s, hs, _⟩
    · exact h
    · simp at hs
  have haux : ∀ (p : List Move) (b : Board), PathTo root p b → b.flatten ∈ ex := by
    intro p b hp
    induction hp with
    | nil => exact hrootex
    | snoc hp hstep ih =>
      rename_i b0 m b2
      obtain ⟨b', hwfb', _, hflat', hcase⟩ := hids _ ih
      have hwfb0 : WellFormedBoard b0 := PathTo.wf hwf hp
      have hbeq : b' = b0 := flatten_inj hwfb'.1 hwfb0.1 hflat'
      rcases hcase with ⟨s, hs, _⟩ | ⟨_, hclose⟩
      · simp at hs
      · rcases hclose m b2 (by rw [hbeq]; exact hstep) with h | ⟨s, hs, _⟩
        · exact h
        · simp at hs
  intro hreach
  obtain ⟨p, hp⟩ := hreach
  obtain ⟨b', _, _, hflat', hcase⟩ := hids _ (haux p goalBoard hp)
  rcases hcase with ⟨s, hs, _⟩ | ⟨hng, _⟩
  · simp at hs
  · exact hng (hflat'.trans rfl)

theorem bfs_searchInv_step {root : Board} {s : PuzzleState}
    {rest : List PuzzleState} {ex : ExploredSet}
    (hinv : SearchInv root ⟨s :: rest, ex⟩) (hg : ¬s.isGoal = true) :
    SearchInv root ⟨(bfsPush s.getNeighbors rest (ex.insert s.getId)).1,
      (bfsPush s.getNeighbors rest (ex.insert s.getId)).2⟩ := by
  obtain ⟨hgood, hroot, hids⟩ := hinv
  have hs := hgood s (by simp)
  have hnotgoal : s.board.flatten ≠ goalFlat := fun hgoal => hg ((isGoal_iff s).mpr hgoal)
  have hexpand : ∀ m b2, (m, b2) ∈ neighborMoves s.board →
      b2.flatten ∈ (bfsPush s.getNeighbors rest (ex.insert s.getId)).2 := by
    intro m b2 hmb
    have hmem : PuzzleState.make b2 (some s) (some m) ∈ s.getNeighbors := by
      unfold PuzzleState.getNeighbors
      exact List.mem_map.mpr ⟨(m, b2), hmb, rfl⟩
    exact bfsPush_covers hmem
  refine ⟨?_, ?_, ?_⟩
  · intro t ht
    rcases mem_bfsPush ht with h1 | h1
    · exact hgood t (List.mem_cons_of_mem _ h1)
    · exact goodState_neighbor hs h1
  · rcases hroot with h1 | ⟨s2, hs2, hb⟩
    · exact Or.inl (bfsPush_explored_mono (List.mem_insert_iff.mpr (Or.inr h1)))
    · rcases List.mem_cons.mp hs2 with rfl | h2
      · exact Or.inl (bfsPush_explored_mono
          (List.mem_insert_iff.mpr (Or.inl (by rw [← hb]; rfl))))
      · exact Or.inr ⟨s2, bfsPush_frontier_mono h2, hb⟩
  · intro id hid
    rcases mem_bfsPush_explored hid with h1 | ⟨n, hn, rfl, hnfr⟩
    · rcases List.mem_insert_iff.mp h1 with rfl | h2
      · exact ⟨s.board, hs.1, ⟨_, hs.2.1⟩, rfl,
          Or.inr ⟨hnotgoal, fun m b2 hmb => Or.inl (hexpand m b2 hmb)⟩⟩
      · obtain ⟨b, hwfb, hreach, hflat, hcase⟩ := hids id h2
        refine ⟨b, hwfb, hreach, hflat, ?_⟩
        rcases hcase with ⟨s2, hs2, hb⟩ | ⟨hng, hclose⟩
        · rcases List.mem_cons.mp hs2 with rfl | h3
          · subst hb
            exact Or.inr ⟨hnotgoal, fun m b2 hmb => Or.inl (hexpand m b2 hmb)⟩
          · exact Or.inl ⟨s2, bfsPush_frontier_mono h3, hb⟩
        · refine Or.inr ⟨hng, ?_⟩
          intro m b2 hmb
          rcases hclose m b2 hmb with h4 | ⟨s2, hs2, hb2⟩
          · exact Or.inl (bfsPush_explored_mono (List.mem_insert_iff.mpr (Or.inr h4)))
          · rcases List.mem_cons.mp hs2 with rfl | h5
            · exact Or.inl (bfsPush_explored_mono
                (List.mem_insert_iff.mpr (Or.inl (by rw [← hb2]; rfl))))
            · exact Or.inr ⟨s2, bfsPush_frontier_mono h5, hb2⟩
    · have hgn := goodState_neighbor hs hn
      exact ⟨n.board, hgn.1, ⟨_, hgn.2.1⟩, rfl, Or.inl ⟨n, hnfr, rfl⟩⟩

theorem bestFirst_searchInv_step (heuristic : PuzzleState → Nat) {root : Board}
    {s : PuzzleState} {rest : List PuzzleState} {ex : ExploredSet}
    (hinv : SearchInv root ⟨s :: rest, ex⟩) (hg : ¬s.isGoal = true) :
    SearchInv root ⟨bestFirstPush heuristic s.getNeighbors rest (ex.insert s.getId),
      ex.insert s.getId⟩ := by
  obtain ⟨hgood, hroot, hids⟩ := hinv
  have hs := hgood s (by simp)
  have hnotgoal : s.board.flatten ≠ goalFlat := fun hgoal => hg ((isGoal_iff s).mpr hgoal)
  have hexpand : ∀ m b2, (m, b2) ∈ neighborMoves s.board →
      b2.flatten ∈ ex.insert s.getId ∨
        ∃ t ∈ bestFirstPush heuristic s.getNeighbors rest (ex.insert s.getId),
          t.board = b2 := by
    intro m b2 hmb
    have hmem : PuzzleState.make b2 (some s) (some m) ∈ s.getNeighbors := by
      unfold PuzzleState.getNeighbors
      exact List.mem_map.mpr ⟨(m, b2), hmb, rfl⟩
    exact bestFirstPush_covers heuristic hmem
  refine ⟨?_, ?_, ?_⟩
  · intro t ht
    rcases mem_bestFirstPush heuristic ht with h1 | ⟨n, hn, rfl⟩
    · exact hgood t (List.mem_cons_of_mem _ h1)
    · exact goodState_setH (goodState_neighbor hs hn) _
  · rcases hroot with h1 | ⟨s2, hs2, hb⟩
    · exact Or.inl (List.mem_insert_iff.mpr (Or.inr h1))
    · rcases List.mem_cons.mp hs2 with rfl | h2
      · exact Or.inl (List.mem_insert_iff.mpr (Or.inl (by rw [← hb]; rfl)))
      · exact Or.inr ⟨s2, bestFirstPush_frontier_mono heuristic h2, hb⟩
  · intro id hid
    rcases List.mem_insert_iff.mp hid with rfl | h2
    · exact ⟨s.board, hs.1, ⟨_, hs.2.1⟩, rfl, Or.inr ⟨hnotgoal, hexpand⟩⟩
    · obtain ⟨b, hwfb, hreach, hflat, hcase⟩ := hids id h2
      refine ⟨b, hwfb, hreach, hflat, ?_⟩
      rcases hcase with ⟨s2, hs2, hb⟩ | ⟨hng, hclose⟩
      · rcases List.mem_cons.mp hs2 with rfl | h3
        · subst hb
          exact Or.inr ⟨hnotgoal, hexpand⟩
        · exact Or.inl ⟨s2, bestFirstPush_frontier_mono heuristic h3, hb⟩
      · refine Or.inr ⟨hng, ?_⟩
        intro m b2 hmb
        rcases hclose m b2 hmb with h4 | ⟨s2, hs2, hb2⟩
        · exact Or.inl (List.mem_insert_iff.mpr (Or.inr h4))
        · rcases List.mem_cons.mp hs2 with rfl | h5
          · exact Or.inl (List.mem_insert_iff.mpr (Or.inl (by rw [← hb2]; rfl)))
          · exact Or.inr ⟨s2, bestFirstPush_frontier_mono heuristic h5, hb2⟩

theorem aStar_searchInv_step (heuristic : PuzzleState → Nat) {root : Board}
    {s : PuzzleState} {rest : List PuzzleState} {ex : ExploredSet}
    (hinv : SearchInv root ⟨s :: rest, ex⟩) (hg : ¬s.isGoal = true) :
    SearchInv root ⟨aStarPush heuristic s.getNeighbors rest (ex.insert s.getId),
      ex.insert s.getId⟩ := by
  obtain ⟨hgood, hroot, hids⟩ := hinv
  have hs := hgood s (by simp)
  have hnotgoal : s.board.flatten ≠ goalFlat := fun hgoal => hg ((isGoal_iff s).mpr hgoal)
  have hexpand : ∀ m b2, (m, b2) ∈ neighborMoves s.board →
      b2.flatten ∈ ex.insert s.getId ∨
        ∃ t ∈ aStarPush heuristic s.getNeighbors rest (ex.insert s.getId),
          t.board = b2 := by
    intro m b2 hmb
    have hmem : PuzzleState.make b2 (some s) (some m) ∈ s.getNeighbors := by
      unfold PuzzleState.getNeighbors
      exact List.mem_map.mpr ⟨(m, b2), hmb, rfl⟩
    exact aStarPush_covers heuristic hmem
  refine ⟨?_, ?_, ?_⟩
  · intro t ht
    rcases mem_aStarPush heuristic ht with h1 | ⟨n, hn, rfl⟩
    · exact hgood t (List.mem_cons_of_mem _ h1)
    · exact goodState_setF (goodState_setH (goodState_neighbor hs hn) _) _
  · rcases hroot with h1 | ⟨s2, hs2, hb⟩
    · exact Or.inl (List.mem_insert_iff.mpr (Or.inr h1))
    · rcases List.mem_cons.mp hs2 with rfl | h2
      · exact Or.inl (List.mem_insert_iff.mpr (Or.inl (by rw [← hb]; rfl)))
      · exact Or.inr ⟨s2, aStarPush_frontier_mono heuristic h2, hb⟩
  · intro id hid
    rcases List.mem_insert_iff.mp hid with rfl | h2
    · exact ⟨s.board, hs.1, ⟨_, hs.2.1⟩, rfl, Or.inr ⟨hnotgoal, hexpand⟩⟩
    · obtain ⟨b, hwfb, hreach, hflat, hcase⟩ := hids id h2
      refine ⟨b, hwfb, hreach, hflat, ?_⟩
      rcases hcase with ⟨s2, hs2, hb⟩ | ⟨hng, hclose⟩
      · rcases List.mem_cons.mp hs2 with rfl | h3
        · subst hb
          exact Or.inr ⟨hnotgoal, hexpand⟩
        · exact Or.inl ⟨s2, aStarPush_frontier_mono heuristic h3, hb⟩
      · refine Or.inr ⟨hng, ?_⟩
        intro m b2 hmb
        rcases hclose m b2 hmb with h4 | ⟨s2, hs2, hb2⟩
        · exact Or.inl (List.mem_insert_iff.mpr (Or.inr h4))
        · rcases List.mem_cons.mp hs2 with rfl | h5
          · exact Or.inl (List.mem_insert_iff.mpr (Or.inl (by rw [← hb2]; rfl)))
          · exact Or.inr ⟨s2, aStarPush_frontier_mono heuristic h5, hb2⟩

theorem bfs_run_characterization {root : Board} (hwf : WellFormedBoard root) :
    ∀ (fuel : Nat) (c : SearchConfig), SearchInv root c →
      ∀ {r : Option (List Move)}, runLoop bfsStep fuel c = some r →
        (∀ p, r = some p → PathTo root p goalBoard) ∧
        (r = none → ¬ReachableBoard root goalBoard) := by
  intro fuel
  induction fuel with
  | zero => intro c _ r h; cases h
  | succ fuel ih =>
    intro c hinv r h
    obtain ⟨fr, ex⟩ := c
    cases fr with
    | nil =>
      rw [runLoop_done (bfsStep_nil ex)] at h
      cases h
      exact ⟨fun p hp => Option.noConfusion hp, fun _ => exhausted_not_reachable hwf hinv⟩
    | cons s rest =>
      by_cases hg : s.isGoal = true
      · rw [runLoop_done (bfsStep_goal rest ex hg)] at h
        cases h
        refine ⟨?_, fun hnone => Option.noConfusion hnone⟩
        intro p hp
        cases hp
        have hs := hinv.1 s (by simp)
        have hb : s.board = goalBoard := goal_state_board hs.1 hg
        exact hb ▸ hs.2.1
      · rw [runLoop_next (bfsStep_expand rest ex hg)] at h
        exact ih _ (bfs_searchInv_step hinv hg) h

theorem bestFirst_run_characterization (heuristic : PuzzleState → Nat)
    {root : Board} (hwf : WellFormedBoard root) :
    ∀ (fuel : Nat) (c : SearchConfig), SearchInv root c →
      ∀ {r : Option (List Move)}, runLoop (bestFirstStep heuristic) fuel c = some r →
        (∀ p, r = some p → PathTo root p goalBoard) ∧
        (r = none → ¬ReachableBoard root goalBoard) := by
  intro fuel
  induction fuel with
  | zero => intro c _ r h; cases h
  | succ fuel ih =>
    intro c hinv r h
    obtain ⟨fr, ex⟩ := c
    cases fr with
    | nil =>
      rw [runLoop_done (bestFirstStep_nil heuristic ex)] at h
      cases h
      exact ⟨fun p hp => Option.noConfusion hp, fun _ => exhausted_not_reachable hwf hinv⟩
    | cons s rest =>
      by_cases hg : s.isGoal = true
      · rw [runLoop_done (bestFirstStep_goal heuristic rest ex hg)] at h
        cases h
        refine ⟨?_, fun hnone => Option.noConfusion hnone⟩
        intro p hp
        cases hp
        have hs := hinv.1 s (by simp)
        have hb : s.board = goalBoard := goal_state_board hs.1 hg
        exact hb ▸ hs.2.1
      · rw [runLoop_next (bestFirstStep_expand heuristic rest ex hg)] at h
        exact ih _ (bestFirst_searchInv_step heuristic hinv hg) h

theorem aStar_run_characterization (heuristic : PuzzleState → Nat)
    {root : Board} (hwf : WellFormedBoard root) :
    ∀ (fuel : Nat) (c : SearchConfig), SearchInv root c →
      ∀ {r : Option (List Move)}, runLoop (aStarStep heuristic) fuel c = some r →
        (∀ p, r = some p → PathTo root p goalBoard) ∧
        (r = none → ¬ReachableBoard root goalBoard) := by
  intro fuel
  induction fuel with
  | zero => intro c _ r h; cases h
  | succ fuel ih =>
    intro c hinv r h
    obtain ⟨fr, ex⟩ := c
    cases fr with
    | nil =>
      rw [runLoop_done (aStarStep_nil heuristic ex)] at h
      cases h
      exact ⟨fun p hp => Option.noConfusion hp, fun _ => exhausted_not_reachable hwf hinv⟩
    | cons s rest =>
      by_cases hg : s.isGoal = true
      · rw [runLoop_done (aStarStep_goal heuristic rest ex hg)] at h
        cases h
        refine ⟨?_, fun hnone => Option.noConfusion hnone⟩
        intro p hp
        cases hp
        have hs := hinv.1 s (by simp)
        have hb : s.board = goalBoard := goal_state_board hs.1 hg
        exact hb ▸ hs.2.1
      · rw [runLoop_next (aStarStep_expand heuristic rest ex hg)] at h
        exact ih _ (aStar_searchInv_step heuristic hinv hg) h

/-! ### Termination measures -/

theorem explored_le_idBound {ex : ExploredSet} (h1 : ex.Nodup)
    (h2 : ∀ id ∈ ex, id.Perm (List.range 9)) : ex.length ≤ idBound :=
  (List.subperm_of_subset h1 fun id hid =>
    List.mem_permutations.mpr (h2 id hid)).length_le

theorem termInv_init {root : Board} (hwf : WellFormedBoard root) :
    TermInv (initConfig (PuzzleState.make root none none)) := by
  refine ⟨?_, by simp [initConfig], by simp [initConfig]⟩
  intro s hs
  simp only [initConfig, List.mem_singleton] at hs
  subst hs
  exact hwf

theorem bfsPush_counts : ∀ {ns fr : List PuzzleState} {ex : ExploredSet},
    (bfsPush ns fr ex).1.length + ex.length =
      fr.length + (bfsPush ns fr ex).2.length := by
  intro ns
  induction ns with
  | nil => intro fr ex; rfl
  | cons n t ih =>
    intro fr ex
    unfold bfsPush
    by_cases hm : n.getId ∈ ex
    · rw [if_pos hm]; exact ih
    · rw [if_neg hm]
      have h1 := @ih (fr ++ [n]) (ex.insert n.getId)
      have h2 : (ex.insert n.getId).length = ex.length + 1 :=
        List.length_insert_of_not_mem hm
      rw [h2, List.length_append] at h1
      simp only [List.length_singleton] at h1
      omega

theorem bfsPush_ex_le : ∀ {ns fr : List PuzzleState} {ex : ExploredSet},
    ex.length ≤ (bfsPush ns fr ex).2.length := by
  intro ns
  induction ns with
  | nil => intro fr ex; exact Nat.le_refl _
  | cons n t ih =>
    intro fr ex
    unfold bfsPush
    by_cases hm : n.getId ∈ ex
    · rw [if_pos hm]; exact ih
    · rw [if_neg hm]
      have h1 := @ih (fr ++ [n]) (ex.insert n.getId)
      have h2 : (ex.insert n.getId).length = ex.length + 1 :=
        List.length_insert_of_not_mem hm
      omega

theorem nodup_insert_id {ex : ExploredSet} {id : List Nat} (h : ex.Nodup) :
    (ex.insert id).Nodup := by
  by_cases hm : id ∈ ex
  · rwa [List.insert_of_mem hm]
  · rw [List.insert_of_not_mem hm]
    exact List.nodup_cons.mpr ⟨hm, h⟩

theorem bfsPush_termInv : ∀ {ns fr : List PuzzleState} {ex : ExploredSet},
    (∀ n ∈ ns, WellFormedBoard n.board) → (∀ s ∈ fr, WellFormedBoard s.board) →
    ex.Nodup → (∀ id ∈ ex, id.Perm (List.range 9)) →
    (∀ s ∈ (bfsPush ns fr ex).1, WellFormedBoard s.board) ∧
      (bfsPush ns fr ex).2.Nodup ∧
      ∀ id ∈ (bfsPush ns fr ex).2, id.Perm (List.range 9) := by
  intro ns
  induction ns with
  | nil => intro fr ex h1 h2 h3 h4; exact ⟨h2, h3, h4⟩
  | cons n t ih =>
    intro fr ex h1 h2 h3 h4
    unfold bfsPush
    by_cases hm : n.getId ∈ ex
    · rw [if_pos hm]
      exact ih (fun n2 hn2 => h1 n2 (List.mem_cons_of_mem _ hn2)) h2 h3 h4
    · rw [if_neg hm]
      apply ih (fun n2 hn2 => h1 n2 (List.mem_cons_of_mem _ hn2))
      · intro s hs
        rcases List.mem_append.mp hs with h5 | h5
        · exact h2 s h5
        · simp only [List.mem_singleton] at h5
          subst h5
          exact h1 s (by simp)
      · exact nodup_insert_id h3
      · intro id hid
        rcases List.mem_insert_iff.mp hid with rfl | h5
        · exact (h1 n (by simp)).2
        · exact h4 id h5

theorem bfs_terminates_aux : ∀ (μ : Nat) (c : SearchConfig), TermInv c →
    2 * (idBound - c.explored.length) + c.frontier.length ≤ μ →
    ∃ fuel r, runLoop bfsStep fuel c = some r := by
  intro μ
  induction μ with
  | zero =>
    intro c hinv hm
    obtain ⟨fr, ex⟩ := c
    cases fr with
    | nil => exact ⟨1, none, runLoop_done (bfsStep_nil ex)⟩
    | cons s rest => simp at hm
  | succ μ ih =>
    intro c hinv hm
    obtain ⟨fr, ex⟩ := c
    cases fr with
    | nil => exact ⟨1, none, runLoop_done (bfsStep_nil ex)⟩
    | cons s rest =>
      by_cases hg : s.isGoal = true
      · exact ⟨1, some (reconstructPath s), runLoop_done (bfsStep_goal rest ex hg)⟩
      · obtain ⟨hfr, hnd, hperm⟩ := hinv
        have hwfs : WellFormedBoard s.board := hfr s (by simp)
        have hnd1 : (ex.insert s.getId).Nodup := nodup_insert_id hnd
        have hperm1 : ∀ id ∈ ex.insert s.getId, id.Perm (List.range 9) := by
          intro id hid
          rcases List.mem_insert_iff.mp hid with rfl | h5
          · exact hwfs.2
          · exact hperm id h5
        have hns : ∀ n ∈ s.getNeighbors, WellFormedBoard n.board := by
          intro n hn
          obtain ⟨m, b2, hmb, rfl⟩ := mem_getNeighbors hn
          rw [make_board]
          exact wf_of_neighbor hwfs hmb
        have hrest : ∀ t ∈ rest, WellFormedBoard t.board :=
          fun t ht => hfr t (List.mem_cons_of_mem _ ht)
        obtain ⟨hi1, hi2, hi3⟩ := bfsPush_termInv hns hrest hnd1 hperm1
        have hmeas : 2 * (idBound -
              (bfsPush s.getNeighbors rest (ex.insert s.getId)).2.length) +
            (bfsPush s.getNeighbors rest (ex.insert s.getId)).1.length ≤ μ := by
          have hc := @bfsPush_counts s.getNeighbors rest
            (ex.insert s.getId)
          have hc2 := @bfsPush_ex_le s.getNeighbors rest
            (ex.insert s.getId)
          have hb1 : (bfsPush s.getNeighbors rest (ex.insert s.getId)).2.length ≤
              idBound := explored_le_idBound hi2 hi3
          have hb2 : ex.length ≤ (ex.insert s.getId).length := by
            by_cases hm2 : s.getId ∈ ex
            · rw [List.insert_of_mem hm2]
            · rw [List.length_insert_of_not_mem hm2]
              omega
          simp only [List.length_cons] at hm
          omega
        obtain ⟨fuel, r, hrun⟩ := ih
          ⟨(bfsPush s.getNeighbors rest (ex.insert s.getId)).1,
            (bfsPush s.getNeighbors rest (ex.insert s.getId)).2⟩ ⟨hi1, hi2, hi3⟩ hmeas
        exact ⟨fuel + 1, r, by rw [runLoop_next (bfsStep_expand rest ex hg)]; exact hrun⟩

theorem orderedInsert_perm (key : PuzzleState → Nat) (fr : List PuzzleState)
    (n : PuzzleState) : (orderedInsert key fr n).Perm (n :: fr) := by
  rw [orderedInsert_eq_takeWhile]
  have h : ((fr.takeWhile fun s => !(key n < key s)) ++
      n :: (fr.dropWhile fun s => !(key n < key s))).Perm
      (n :: ((fr.takeWhile fun s => !(key n < key s)) ++
        fr.dropWhile fun s => !(key n < key s))) := List.perm_middle
  rw [List.takeWhile_append_dropWhile] at h
  exact h

theorem bestFirstPush_countP (heuristic : PuzzleState → Nat) :
    ∀ {ns fr : List PuzzleState} {ex : ExploredSet},
      (bestFirstPush heuristic ns fr ex).countP (fun t => decide (t.getId ∈ ex)) =
        fr.countP (fun t => decide (t.getId ∈ ex)) := by
  intro ns
  induction ns with
  | nil => intro fr ex; rfl
  | cons n t ih =>
    intro fr ex
    unfold bestFirstPush
    by_cases hm : n.getId ∈ ex
    · rw [if_pos hm]; exact ih
    · rw [if_neg hm, ih, (orderedInsert_perm _ _ _).countP_eq, List.countP_cons]
      simp [getId_setH, hm]

theorem aStarPush_countP (heuristic : PuzzleState → Nat) :
    ∀ {ns fr : List PuzzleState} {ex : ExploredSet},
      (aStarPush heuristic ns fr ex).countP (fun t => decide (t.getId ∈ ex)) =
        fr.countP (fun t => decide (t.getId ∈ ex)) := by
  intro ns
  induction ns with
  | nil => intro fr ex; rfl
  | cons n t ih =>
    intro fr ex
    unfold aStarPush
    by_cases hm : n.getId ∈ ex
    · rw [if_pos hm]; exact ih
    · rw [if_neg hm, ih, (orderedInsert_perm _ _ _).countP_eq, List.countP_cons]
      simp [getId_setF, getId_setH, hm]

theorem bf_term_inner (heuristic : PuzzleState → Nat) (u : Nat)
    (ihu : ∀ u2, u2 < u → ∀ c : SearchConfig, TermInv c →
      idBound - c.explored.length ≤ u2 →
      ∃ fuel r, runLoop (bestFirstStep heuristic) fuel c = some r) :
    ∀ (e : Nat) (c : SearchConfig), TermInv c →
      idBound - c.explored.length ≤ u →
      c.frontier.countP (fun t => decide (t.getId ∈ c.explored)) ≤ e →
      ∃ fuel r, runLoop (bestFirstStep heuristic) fuel c = some r := by
  intro e
  induction e with
  | zero =>
    intro c hinv hu he
    obtain ⟨fr, ex⟩ := c
    cases fr with
    | nil => exact ⟨1, none, runLoop_done (bestFirstStep_nil heuristic ex)⟩
    | cons s rest =>
      by_cases hg : s.isGoal = true
      · exact ⟨1, some (reconstructPath s),
          runLoop_done (bestFirstStep_goal heuristic rest ex hg)⟩
      · obtain ⟨hfr, hnd, hperm⟩ := hinv
        have hwfs := hfr s (by simp)
        have hinv2 : TermInv ⟨bestFirstPush heuristic s.getNeighbors rest
            (ex.insert s.getId), ex.insert s.getId⟩ := by
          refine ⟨?_, nodup_insert_id hnd, ?_⟩
          · intro t ht
            rcases mem_bestFirstPush heuristic ht with h1 | ⟨n, hn, rfl⟩
            · exact hfr t (List.mem_cons_of_mem _ h1)
            · rw [setH_board]
              obtain ⟨m, b2, hmb, rfl⟩ := mem_getNeighbors hn
              rw [make_board]
              exact wf_of_neighbor hwfs hmb
          · intro id hid
            rcases List.mem_insert_iff.mp hid with rfl | h5
            · exact hwfs.2
            · exact hperm id h5
        by_cases hsid : s.getId ∈ ex
        · exfalso
          have hcount : (s :: rest).countP (fun t => decide (t.getId ∈ ex)) =
              rest.countP (fun t => decide (t.getId ∈ ex)) + 1 := by
            rw [List.countP_cons]
            simp [hsid]
          simp only at he
          omega
        · have hlen : (ex.insert s.getId).length = ex.length + 1 :=
            List.length_insert_of_not_mem hsid
          have hbound : (ex.insert s.getId).length ≤ idBound :=
            explored_le_idBound hinv2.2.1 hinv2.2.2
          obtain ⟨fuel, r, hrun⟩ := ihu (u - 1) (by simp only at hu; omega)
            ⟨bestFirstPush heuristic s.getNeighbors rest (ex.insert s.getId),
              ex.insert s.getId⟩ hinv2 (by simp only at hu ⊢; omega)
          exact ⟨fuel + 1, r, by
            rw [runLoop_next (bestFirstStep_expand heuristic rest ex hg)]
            exact hrun⟩
  | succ e ihe =>
    intro c hinv hu he
    obtain ⟨fr, ex⟩ := c
    cases fr with
    | nil => exact ⟨1, none, runLoop_done (bestFirstStep_nil heuristic ex)⟩
    | cons s rest =>
      by_cases hg : s.isGoal = true
      · exact ⟨1, some (reconstructPath s),
          runLoop_done (bestFirstStep_goal heuristic rest ex hg)⟩
      · obtain ⟨hfr, hnd, hperm⟩ := hinv
        have hwfs := hfr s (by simp)
        have hinv2 : TermInv ⟨bestFirstPush heuristic s.getNeighbors rest
            (ex.insert s.getId), ex.insert s.getId⟩ := by
          refine ⟨?_, nodup_insert_id hnd, ?_⟩
          · intro t ht
            rcases mem_bestFirstPush heuristic ht with h1 | ⟨n, hn, rfl⟩
            · exact hfr t (List.mem_cons_of_mem _ h1)
            · rw [setH_board]
              obtain ⟨m, b2, hmb, rfl⟩ := mem_getNeighbors hn
              rw [make_board]
              exact wf_of_neighbor hwfs hmb
          · intro id hid
            rcases List.mem_insert_iff.mp hid with rfl | h5
            · exact hwfs.2
            · exact hperm id h5
        by_cases hsid : s.getId ∈ ex
        · have hexeq : ex.insert s.getId = ex := List.insert_of_mem hsid
          have hcount : (s :: rest).countP (fun t => decide (t.getId ∈ ex)) =
              rest.countP (fun t => decide (t.getId ∈ ex)) + 1 := by
            rw [List.countP_cons]
            simp [hsid]
          have hc2 : (bestFirstPush heuristic s.getNeighbors rest
                (ex.insert s.getId)).countP
                (fun t => decide (t.getId ∈ ex.insert s.getId)) =
              rest.countP (fun t => decide (t.getId ∈ ex.insert s.getId)) :=
            bestFirstPush_countP heuristic
          rw [hexeq] at hc2 hinv2
          simp only at he
          obtain ⟨fuel, r, hrun⟩ := ihe
            ⟨bestFirstPush heuristic s.getNeighbors rest ex, ex⟩ hinv2
            (by simp only at hu ⊢; exact hu) (by simp only; omega)
          refine ⟨fuel + 1, r, ?_⟩
          rw [runLoop_next (bestFirstStep_expand heuristic rest ex hg), hexeq]
          exact hrun
        · have hlen : (ex.insert s.getId).length = ex.length + 1 :=
            List.length_insert_of_not_mem hsid
          have hbound : (ex.insert s.getId).length ≤ idBound :=
            explored_le_idBound hinv2.2.1 hinv2.2.2
          obtain ⟨fuel, r, hrun⟩ := ihu (u - 1) (by simp only at hu; omega)
            ⟨bestFirstPush heuristic s.getNeighbors rest (ex.insert s.getId),
              ex.insert s.getId⟩ hinv2 (by simp only at hu ⊢; omega)
          exact ⟨fuel + 1, r, by
            rw [runLoop_next (bestFirstStep_expand heuristic rest ex hg)]
            exact hrun⟩

theorem bestFirst_terminates (heuristic : PuzzleState → Nat) :
    ∀ (u : Nat) (c : SearchConfig), TermInv c → idBound - c.explored.length ≤ u →
      ∃ fuel r, runLoop (bestFirstStep heuristic) fuel c = some r := by
  intro u
  induction u using Nat.strong_induction_on with
  | _ u ihu =>
    intro c hinv hu
    exact bf_term_inner heuristic u ihu
      (c.frontier.countP fun t => decide (t.getId ∈ c.explored)) c hinv hu
      (Nat.le_refl _)

theorem as_term_inner (heuristic : PuzzleState → Nat) (u : Nat)
    (ihu : ∀ u2, u2 < u → ∀ c : SearchConfig, TermInv c →
      idBound - c.explored.length ≤ u2 →
      ∃ fuel r, runLoop (aStarStep heuristic) fuel c = some r) :
    ∀ (e : Nat) (c : SearchConfig), TermInv c →
      idBound - c.explored.length ≤ u →
      c.frontier.countP (fun t => decide (t.getId ∈ c.explored)) ≤ e →
      ∃ fuel r, runLoop (aStarStep heuristic) fuel c = some r := by
  intro e
  induction e with
  | zero =>
    intro c hinv hu he
    obtain ⟨fr, ex⟩ := c
    cases fr with
    | nil => exact ⟨1, none, runLoop_done (aStarStep_nil heuristic ex)⟩
    | cons s rest =>
      by_cases hg : s.isGoal = true
      · exact ⟨1, some (reconstructPath s),
          runLoop_done (aStarStep_goal heuristic rest ex hg)⟩
      · obtain ⟨hfr, hnd, hperm⟩ := hinv
        have hwfs := hfr s (by simp)
        have hinv2 : TermInv ⟨aStarPush heuristic s.getNeighbors rest
            (ex.insert s.getId), ex.insert s.getId⟩ := by
          refine ⟨?_, nodup_insert_id hnd, ?_⟩
          · intro t ht
            rcases mem_aStarPush heuristic ht with h1 | ⟨n, hn, rfl⟩
            · exact hfr t (List.mem_cons_of_mem _ h1)
            · rw [setF_board, setH_board]
              obtain ⟨m, b2, hmb, rfl⟩ := mem_getNeighbors hn
              rw [make_board]
              exact wf_of_neighbor hwfs hmb
          · intro id hid
            rcases List.mem_insert_iff.mp hid with rfl | h5
            · exact hwfs.2
            · exact hperm id h5
        by_cases hsid : s.getId ∈ ex
        · exfalso
          have hcount : (s :: rest).countP (fun t => decide (t.getId ∈ ex)) =
              rest.countP (fun t => decide (t.getId ∈ ex)) + 1 := by
            rw [List.countP_cons]
            simp [hsid]
          simp only at he
          omega
        · have hlen : (ex.insert s.getId).length = ex.length + 1 :=
            List.length_insert_of_not_mem hsid
          have hbound : (ex.insert s.getId).length ≤ idBound :=
            explored_le_idBound hinv2.2.1 hinv2.2.2
          obtain ⟨fuel, r, hrun⟩ := ihu (u - 1) (by simp only at hu; omega)
            ⟨aStarPush heuristic s.getNeighbors rest (ex.insert s.getId),
              ex.insert s.getId⟩ hinv2 (by simp only at hu ⊢; omega)
          exact ⟨fuel + 1, r, by
            rw [runLoop_next (aStarStep_expand heuristic rest ex hg)]
            exact hrun⟩
  | succ e ihe =>
    intro c hinv hu he
    obtain ⟨fr, ex⟩ := c
    cases fr with
    | nil => exact ⟨1, none, runLoop_done (aStarStep_nil heuristic ex)⟩
    | cons s rest =>
      by_cases hg : s.isGoal = true
      · exact ⟨1, some (reconstructPath s),
          runLoop_done (aStarStep_goal heuristic rest ex hg)⟩
      · obtain ⟨hfr, hnd, hperm⟩ := hinv
        have hwfs := hfr s (by simp)
        have hinv2 : TermInv ⟨aStarPush heuristic s.getNeighbors rest
            (ex.insert s.getId), ex.insert s.getId⟩ := by
          refine ⟨?_, nodup_insert_id hnd, ?_⟩
          · intro t ht
            rcases mem_aStarPush heuristic ht with h1 | ⟨n, hn, rfl⟩
            · exact hfr t (List.mem_cons_of_mem _ h1)
            · rw [setF_board, setH_board]
              obtain ⟨m, b2, hmb, rfl⟩ := mem_getNeighbors hn
              rw [make_board]
              exact wf_of_neighbor hwfs hmb
          · intro id hid
            rcases List.mem_insert_iff.mp hid with rfl | h5
            · exact hwfs.2
            · exact hperm id h5
        by_cases hsid : s.getId ∈ ex
        · have hexeq : ex.insert s.getId = ex := List.insert_of_mem hsid
          have hcount : (s :: rest).countP (fun t => decide (t.getId ∈ ex)) =
              rest.countP (fun t => decide (t.getId ∈ ex)) + 1 := by
            rw [List.countP_cons]
            simp [hsid]
          have hc2 : (aStarPush heuristic s.getNeighbors rest
                (ex.insert s.getId)).countP
                (fun t => decide (t.getId ∈ ex.insert s.getId)) =
              rest.countP (fun t => decide (t.getId ∈ ex.insert s.getId)) :=
            aStarPush_countP heuristic
          rw [hexeq] at hc2 hinv2
          simp only at he
          obtain ⟨fuel, r, hrun⟩ := ihe
            ⟨aStarPush heuristic s.getNeighbors rest ex, ex⟩ hinv2
            (by simp only at hu ⊢; exact hu) (by simp only; omega)
          refine ⟨fuel + 1, r, ?_⟩
          rw [runLoop_next (aStarStep_expand heuristic rest ex hg), hexeq]
          exact hrun
        · have hlen : (ex.insert s.getId).length = ex.length + 1 :=
            List.length_insert_of_not_mem hsid
          have hbound : (ex.insert s.getId).length ≤ idBound :=
            explored_le_idBound hinv2.2.1 hinv2.2.2
          obtain ⟨fuel, r, hrun⟩ := ihu (u - 1) (by simp only at hu; omega)
            ⟨aStarPush heuristic s.getNeighbors rest (ex.insert s.getId),
              ex.insert s.getId⟩ hinv2 (by simp only at hu ⊢; omega)
          exact ⟨fuel + 1, r, by
            rw [runLoop_next (aStarStep_expand heuristic rest ex hg)]
            exact hrun⟩

theorem aStar_terminates (heuristic : PuzzleState → Nat) :
    ∀ (u : Nat) (c : SearchConfig), TermInv c → idBound - c.explored.length ≤ u →
      ∃ fuel r, runLoop (aStarStep heuristic) fuel c = some r := by
  intro u
  induction u using Nat.strong_induction_on with
  | _ u ihu =>
    intro c hinv hu
    exact as_term_inner heuristic u ihu
      (c.frontier.countP fun t => decide (t.getId ∈ c.explored)) c hinv hu
      (Nat.le_refl _)

/-- C3: for every well-formed board, each of bfs, bestFirstSearch and aStar
exits its loop after finitely many iterations (the fuel below), returning a
move sequence when the goal board is reachable from the input and the null
result exactly when it is not. -/
theorem C3_terminates_and_complete (puzzle : Board) (hwf : WellFormedBoard puzzle) :
    (∃ fuel r, bfs puzzle fuel = some r ∧
      (r.isSome = true ↔ ReachableBoard puzzle goalBoard)) ∧
    (∀ heuristic, ∃ fuel r, bestFirstSearch puzzle heuristic fuel = some r ∧
      (r.isSome = true ↔ ReachableBoard puzzle goalBoard)) ∧
    (∀ heuristic, ∃ fuel r, aStar puzzle heuristic fuel = some r ∧
      (r.isSome = true ↔ ReachableBoard puzzle goalBoard)) := by
  refine ⟨?_, ?_, ?_⟩
  · obtain ⟨fuel, r, hrun⟩ := bfs_terminates_aux (2 * idBound + 1)
      (initConfig (PuzzleState.make puzzle none none)) (termInv_init hwf)
      (by simp [initConfig])
    refine ⟨fuel, r, hrun, ?_⟩
    have hchar := bfs_run_characterization hwf fuel _ (searchInv_init hwf) hrun
    cases r with
    | none =>
      simp only [Option.isSome_none, Bool.false_eq_true, false_iff]
      exact hchar.2 rfl
    | some p =>
      simp only [Option.isSome_some, true_iff]
      exact ⟨p, hchar.1 p rfl⟩
  · intro heuristic
    obtain ⟨fuel, r, hrun⟩ := bestFirst_terminates heuristic idBound
      (initConfig (PuzzleState.make puzzle none none)) (termInv_init hwf)
      (by simp [initConfig])
    refine ⟨fuel, r, hrun, ?_⟩
    have hchar := bestFirst_run_characterization heuristic hwf fuel _
      (searchInv_init hwf) hrun
    cases r with
    | none =>
      simp only [Option.isSome_none, Bool.false_eq_true, false_iff]
      exact hchar.2 rfl
    | some p =>
      simp only [Option.isSome_some, true_iff]
      exact ⟨p, hchar.1 p rfl⟩
  · intro heuristic
    obtain ⟨fuel, r, hrun⟩ := aStar_terminates heuristic idBound
      (initConfig (PuzzleState.make puzzle none none)) (termInv_init hwf)
      (by simp [initConfig])
    refine ⟨fuel, r, hrun, ?_⟩
    have hchar := aStar_run_characterization heuristic hwf fuel _
      (searchInv_init hwf) hrun
    cases r with
    | none =>
      simp only [Option.isSome_none, Bool.false_eq_true, false_iff]
      exact hchar.2 rfl
    | some p =>
      simp only [Option.isSome_some, true_iff]
      exact ⟨p, hchar.1 p rfl⟩

/-- Witness for C3 at a concrete well-formed board in the unsolvable parity
class (two adjacent tiles of the solved board swapped). -/
theorem C3_witness :
    (∃ fuel r, bfs [[2, 1, 3], [4, 5, 6], [7, 8, 0]] fuel = some r ∧
      (r.isSome = true ↔ ReachableBoard [[2, 1, 3], [4, 5, 6], [7, 8, 0]] goalBoard)) ∧
    (∀ heuristic, ∃ fuel r,
      bestFirstSearch [[2, 1, 3], [4, 5, 6], [7, 8, 0]] heuristic fuel = some r ∧
      (r.isSome = true ↔ ReachableBoard [[2, 1, 3], [4, 5, 6], [7, 8, 0]] goalBoard)) ∧
    (∀ heuristic, ∃ fuel r,
      aStar [[2, 1, 3], [4, 5, 6], [7, 8, 0]] heuristic fuel = some r ∧
      (r.isSome = true ↔ ReachableBoard [[2, 1, 3], [4, 5, 6], [7, 8, 0]] goalBoard)) :=
  C3_terminates_and_complete [[2, 1, 3], [4, 5, 6], [7, 8, 0]] (by decide)

theorem getD_set_ne {l : List Nat} {i j : Nat} (h : i ≠ j) (a d : Nat) :
    (l.set i a).getD j d = l.getD j d := by
  rw [List.getD_eq_getElem?_getD, List.getD_eq_getElem?_getD, List.getElem?_set_ne h]

theorem getD_set_self {l : List Nat} {i : Nat} (h : i < l.length) (a d : Nat) :
    (l.set i a).getD i d = a := by
  rw [List.getD_eq_getElem?_getD, List.getElem?_set_self]
  · rfl
  · exact h

theorem manhattanDistance_board (s : PuzzleState) :
    manhattanDistance s = manhattanBoard s.board := by
  cases s; rfl

theorem manhattanBoard_eq_flat {b : Board} (hb : BoardShape b) :
    manhattanBoard b = manhattanFlat b.flatten := by
  obtain ⟨a0, a1, a2, a3, a4, a5, a6, a7, a8, rfl⟩ := boardShape_destruct hb
  simp only [manhattanBoard, manhattanDistance, manhattanFlat, cellIdx_eq, cellD,
    List.foldl_cons, List.foldl_nil, Finset.sum_range_succ, Finset.sum_range_zero,
    List.flatten, List.append_nil, List.getD, List.get?]

/-! ## Manhattan consistency (claim C2 machinery) -/

theorem move_adjacent {m : Move} (hm : m ∈ moveTable) {x y nx ny : Nat}
    (hnx : nx = ((x : Int) + m.1).toNat) (hny : ny = ((y : Int) + m.2).toNat)
    (hib : moveInBounds x y m) :
    (nx = x ∧ (ny = y + 1 ∨ y = ny + 1)) ∨ (ny = y ∧ (nx = x + 1 ∨ x = nx + 1)) := by
  simp only [moveTable, List.mem_cons, List.not_mem_nil, or_false] at hm
  obtain ⟨hib1, hib2, hib3, hib4⟩ := hib
  rcases hm with rfl | rfl | rfl | rfl <;>
    simp only at hib1 hib2 hib3 hib4 hnx hny <;> omega

theorem manhattanTerm_adj {t x y nx ny : Nat}
    (hadj : (nx = x ∧ (ny = y + 1 ∨ y = ny + 1)) ∨ (ny = y ∧ (nx = x + 1 ∨ x = nx + 1))) :
    manhattanTerm t x y ≤ manhattanTerm t nx ny + 1 ∧
      manhattanTerm t nx ny ≤ manhattanTerm t x y + 1 := by
  unfold manhattanTerm
  by_cases ht : t ≠ 0
  · rw [if_pos ht, if_pos ht]
    constructor <;> omega
  · rw [if_neg ht, if_neg ht]
    omega

theorem manhattanFlat_set2 {l : List Nat} (hlen : l.length = 9) {P Q : Nat}
    (hP : P < 9) (hQ : Q < 9) (hne : P ≠ Q) (h0 : l.getD P 0 = 0) :
    manhattanFlat l + manhattanTerm (l.getD Q 0) (P / 3) (P % 3) =
      manhattanFlat ((l.set P (l.getD Q 0)).set Q (l.getD P 0)) +
        manhattanTerm (l.getD Q 0) (Q / 3) (Q % 3) := by
  have hPm : P ∈ Finset.range 9 := Finset.mem_range.mpr hP
  have hQm : Q ∈ (Finset.range 9).erase P :=
    Finset.mem_erase.mpr ⟨Ne.symm hne, Finset.mem_range.mpr hQ⟩
  unfold manhattanFlat
  rw [← Finset.add_sum_erase _ _ hPm, ← Finset.add_sum_erase _ _ hQm,
    ← Finset.add_sum_erase _
      (fun k => manhattanTerm (((l.set P (l.getD Q 0)).set Q (l.getD P 0)).getD k 0)
        (k / 3) (k % 3)) hPm,
    ← Finset.add_sum_erase _ _ hQm]
  have hsame : ∀ k ∈ ((Finset.range 9).erase P).erase Q,
      manhattanTerm (((l.set P (l.getD Q 0)).set Q (l.getD P 0)).getD k 0) (k / 3) (k % 3) =
        manhattanTerm (l.getD k 0) (k / 3) (k % 3) := by
    intro k hk
    obtain ⟨hkQ, hk2⟩ := Finset.mem_erase.mp hk
    obtain ⟨hkP, hk3⟩ := Finset.mem_erase.mp hk2
    rw [getD_set_ne (Ne.symm hkQ), getD_set_ne (Ne.symm hkP)]
  rw [Finset.sum_congr rfl hsame]
  have e1 : ((l.set P (l.getD Q 0)).set Q (l.getD P 0)).getD P 0 = l.getD Q 0 := by
    rw [getD_set_ne (Ne.symm hne), getD_set_self (by omega)]
  have e2 : ((l.set P (l.getD Q 0)).set Q (l.getD P 0)).getD Q 0 = l.getD P 0 := by
    rw [getD_set_self (by rw [List.length_set]; omega)]
  rw [e1, e2, h0]
  have hz : ∀ i j : Nat, manhattanTerm 0 i j = 0 := by
    intro i j
    rw [manhattanTerm, if_neg (by omega)]
  rw [hz, hz]
  omega

theorem manhattan_consistent {b : Board} (hwf : WellFormedBoard b) {m : Move} {b2 : Board}
    (h2 : (m, b2) ∈ neighborMoves b) :
    manhattanBoard b ≤ manhattanBoard b2 + 1 := by
  obtain ⟨x, y, nx, ny, hz, hm, hib, hnx, hny, hx, hy, hnx3, hny3, hne, hpar,
    hb2eq, hflat2, hwf2, hz2, h0, ht0⟩ := neighbor_props hwf h2
  have hlen : b.flatten.length = 9 := flatten_length hwf.1
  rw [manhattanBoard_eq_flat hwf.1, manhattanBoard_eq_flat hwf2.1, hflat2]
  have hkey := manhattanFlat_set2 hlen (P := 3 * x + y) (Q := 3 * nx + ny)
    (by omega) (by omega) (by omega) h0
  have eP1 : (3 * x + y) / 3 = x := by omega
  have eP2 : (3 * x + y) % 3 = y := by omega
  have eQ1 : (3 * nx + ny) / 3 = nx := by omega
  have eQ2 : (3 * nx + ny) % 3 = ny := by omega
  rw [eP1, eP2, eQ1, eQ2] at hkey
  have hadj := manhattanTerm_adj (t := b.flatten.getD (3 * nx + ny) 0)
    (move_adjacent hm hnx hny hib)
  omega

/-! ## BFS optimality (claim C2 machinery) -/

theorem bfsPush_structure : ∀ {ns fr : List PuzzleState} {ex : ExploredSet},
    ∃ newly, (bfsPush ns fr ex).1 = fr ++ newly ∧
      ∀ n ∈ newly, n ∈ ns ∧ n.getId ∉ ex := by
  intro ns
  induction ns with
  | nil =>
    intro fr ex
    exact ⟨[], by simp [bfsPush], by simp⟩
  | cons n t ih =>
    intro fr ex
    unfold bfsPush
    by_cases hm : n.getId ∈ ex
    · rw [if_pos hm]
      obtain ⟨newly, h1, h2⟩ := @ih fr ex
      exact ⟨newly, h1, fun n2 hn2 =>
        ⟨List.mem_cons_of_mem _ (h2 n2 hn2).1, (h2 n2 hn2).2⟩⟩
    · rw [if_neg hm]
      obtain ⟨newly, h1, h2⟩ := @ih (fr ++ [n]) (ex.insert n.getId)
      refine ⟨n :: newly, ?_, ?_⟩
      · rw [h1, List.append_assoc]
        rfl
      · intro n2 hn2
        rcases List.mem_cons.mp hn2 with rfl | h3
        · exact ⟨List.mem_cons_self _ _, hm⟩
        · refine ⟨List.mem_cons_of_mem _ (h2 n2 h3).1, fun hc => (h2 n2 h3).2 ?_⟩
          exact List.mem_insert_iff.mpr (Or.inr hc)

theorem bfsOptInv_align {root : Board} (hwf : WellFormedBoard root) {s : PuzzleState}
    {rest : List PuzzleState} {ex : ExploredSet}
    (hsi : SearchInv root ⟨s :: rest, ex⟩)
    (hoi : BfsOptInv root ⟨s :: rest, ex⟩) :
    ∃ k A2 B, rest = A2 ++ B ∧ s.g = k ∧
      (∀ t ∈ A2, t.g = k) ∧ (∀ t ∈ B, t.g = k + 1) ∧
      (∀ t ∈ s :: rest, MinDist root t.board t.g) ∧
      (∀ b q, PathTo root q b → q.length < k →
        b.flatten ∈ ex ∧ ∀ t ∈ s :: rest, t.board ≠ b) := by
  obtain ⟨k, A, B, hAB, hA, hB, hmin, hlow⟩ := hoi
  cases A with
  | cons a A2 =>
    rw [List.cons_append] at hAB
    injection hAB with h1 h2
    subst h1
    exact ⟨k, A2, B, h2, hA s (by simp),
      fun t ht => hA t (List.mem_cons_of_mem _ ht), hB, hmin, hlow⟩
  | nil =>
    simp only [List.nil_append] at hAB
    subst hAB
    refine ⟨k + 1, rest, [], by simp, hB s (by simp),
      fun t ht => hB t (List.mem_cons_of_mem _ ht), by simp, hmin, ?_⟩
    intro b q hq hlen
    cases hq with
    | nil =>
      rcases hsi.2.1 with hex | ⟨s2, hs2, hb2⟩
      · refine ⟨hex, ?_⟩
        intro t ht hc
        have h1 := hmin t ht
        rw [hc] at h1
        have h2 : MinDist root root 0 := ⟨⟨[], .nil, rfl⟩, fun q _ => Nat.zero_le _⟩
        have h3 := minDist_unique h1 h2
        have h4 := hB t ht
        omega
      · exfalso
        have h1 := hmin s2 hs2
        rw [hb2] at h1
        have h2 : MinDist root root 0 := ⟨⟨[], .nil, rfl⟩, fun q _ => Nat.zero_le _⟩
        have h3 := minDist_unique h1 h2
        have h4 := hB s2 hs2
        omega
    | snoc hq2 hstep =>
      rename_i q2 b0 m2
      have hlen2 : q2.length < k := by
        rw [List.length_append] at hlen
        simp only [List.length_singleton] at hlen
        omega
      obtain ⟨hb0ex, hb0fr⟩ := hlow b0 q2 hq2 hlen2
      obtain ⟨b1, hwfb1, hreach1, hflat1, hcase⟩ := hsi.2.2 b0.flatten hb0ex
      have hb0wf : WellFormedBoard b0 := PathTo.wf hwf hq2
      have hbeq : b1 = b0 := flatten_inj hwfb1.1 hb0wf.1 hflat1
      subst hbeq
      have hbfr : ∀ t ∈ s :: rest, t.board ≠ b := by
        intro t ht hc
        have h1 := hmin t ht
        rw [hc] at h1
        have h2 := hB t ht
        have h3 := h1.2 (q2 ++ [m2]) (PathTo.snoc hq2 hstep)
        rw [List.length_append] at h3
        simp only [List.length_singleton] at h3
        omega
      rcases hcase with ⟨t, ht, htb⟩ | ⟨hng, hclose⟩
      · exact absurd htb (hb0fr t ht)
      · rcases hclose m2 b hstep with hbex | ⟨t, ht, htb⟩
        · exact ⟨hbex, hbfr⟩
        · exact absurd htb (hbfr t ht)

theorem bfs_opt_step {root : Board} (hwf : WellFormedBoard root) {s : PuzzleState}
    {rest : List PuzzleState} {ex : ExploredSet}
    (hsi : SearchInv root ⟨s :: rest, ex⟩)
    (hoi : BfsOptInv root ⟨s :: rest, ex⟩)
    (hsub : ∀ t ∈ rest, t.getId ∈ ex) :
    BfsOptInv root ⟨(bfsPush s.getNeighbors rest (ex.insert s.getId)).1,
      (bfsPush s.getNeighbors rest (ex.insert s.getId)).2⟩ := by
  obtain ⟨k, A2, B, hrest, hsk, hA, hB, hmin, hlow⟩ := bfsOptInv_align hwf hsi hoi
  obtain ⟨newly, hpushfr, hnew⟩ :=
    @bfsPush_structure s.getNeighbors rest (ex.insert s.getId)
  have hword : ∀ b q, PathTo root q b → q.length ≤ k →
      b.flatten ∈ ex.insert s.getId := by
    intro b q hq hlen
    rcases Nat.lt_or_ge q.length k with hlt | hge
    · exact List.mem_insert_iff.mpr (Or.inr (hlow b q hq hlt).1)
    · have hlenk : q.length = k := Nat.le_antisymm hlen hge
      cases hq with
      | nil =>
        have hk0 : k = 0 := by simpa using hlenk.symm
        have h1 := hmin s (by simp)
        obtain ⟨⟨p0, hp0, hl0⟩, hmn0⟩ := h1
        have hp0nil : p0 = [] := List.length_eq_zero.mp (by omega)
        subst hp0nil
        have hb : root = s.board := PathTo.applyMoves_eq hp0
        rw [hb]
        exact List.mem_insert_iff.mpr (Or.inl rfl)
      | snoc hq2 hstep =>
        rename_i q2 b0 m2
        have hlen2 : q2.length < k := by
          rw [List.length_append] at hlenk
          simp only [List.length_singleton] at hlenk
          omega
        obtain ⟨hb0ex, hb0fr⟩ := hlow b0 q2 hq2 hlen2
        obtain ⟨b1, hwfb1, hreach1, hflat1, hcase⟩ := hsi.2.2 b0.flatten hb0ex
        have hb0wf : WellFormedBoard b0 := PathTo.wf hwf hq2
        have hbeq : b1 = b0 := flatten_inj hwfb1.1 hb0wf.1 hflat1
        subst hbeq
        rcases hcase with ⟨t, ht, htb⟩ | ⟨hng, hclose⟩
        · exact absurd htb (hb0fr t ht)
        · rcases hclose m2 b hstep with hbex | ⟨t, ht, htb⟩
          · exact List.mem_insert_iff.mpr (Or.inr hbex)
          · rcases List.mem_cons.mp ht with rfl | htrest
            · rw [← htb]
              exact List.mem_insert_iff.mpr (Or.inl rfl)
            · rw [← htb]
              exact List.mem_insert_iff.mpr (Or.inr (hsub t htrest))
  refine ⟨k, A2, B ++ newly, ?_, hA, ?_, ?_, ?_⟩
  · show (bfsPush s.getNeighbors rest (ex.insert s.getId)).1 = A2 ++ (B ++ newly)
    rw [hpushfr, hrest, List.append_assoc]
  · intro t ht
    rcases List.mem_append.mp ht with h1 | h1
    · exact hB t h1
    · obtain ⟨hn, hnid⟩ := hnew t h1
      obtain ⟨m2, b2, hmb, rfl⟩ := mem_getNeighbors hn
      rw [make_child_g, hsk]
  · intro t ht
    have ht2 : t ∈ rest ++ newly := by
      rw [← hpushfr]
      exact ht
    rcases List.mem_append.mp ht2 with h1 | h1
    · exact hmin t (List.mem_cons_of_mem _ h1)
    · obtain ⟨hn, hnid⟩ := hnew t h1
      obtain ⟨m2, b2, hmb, rfl⟩ := mem_getNeighbors hn
      rw [make_board, make_child_g, hsk]
      constructor
      · obtain ⟨⟨p0, hp0, hl0⟩, hmn0⟩ := hmin s (by simp)
        refine ⟨p0 ++ [m2], PathTo.snoc hp0 hmb, ?_⟩
        rw [List.length_append, hl0, hsk]
        simp
      · intro q hq
        by_contra hcon
        push_neg at hcon
        have hqk : q.length ≤ k := by omega
        exact hnid (hword b2 q hq hqk)
  · intro b q hq hlen
    obtain ⟨hbex, hbfr⟩ := hlow b q hq hlen
    refine ⟨bfsPush_explored_mono (List.mem_insert_iff.mpr (Or.inr hbex)), ?_⟩
    intro t ht
    have ht2 : t ∈ rest ++ newly := by
      rw [← hpushfr]
      exact ht
    rcases List.mem_append.mp ht2 with h1 | h1
    · exact hbfr t (List.mem_cons_of_mem _ h1)
    · obtain ⟨hn, hnid⟩ := hnew t h1
      intro hc
      apply hnid
      rw [show t.getId = t.board.flatten from rfl, hc]
      exact List.mem_insert_iff.mpr (Or.inr hbex)

theorem bfs_opt_run {root : Board} (hwf : WellFormedBoard root) :
    ∀ (fuel : Nat) (c : SearchConfig), SearchInv root c → BfsOptInv root c →
      (∀ t ∈ c.frontier.drop 1, t.getId ∈ c.explored) →
      ∀ {p : List Move}, runLoop bfsStep fuel c = some (some p) →
        MinDist root goalBoard p.length := by
  intro fuel
  induction fuel with
  | zero => intro c hsi hoi hsub p h; cases h
  | succ fuel ih =>
    intro c hsi hoi hsub p h
    obtain ⟨fr, ex⟩ := c
    cases fr with
    | nil =>
      rw [runLoop_done (bfsStep_nil ex)] at h
      simp at h
    | cons s rest =>
      by_cases hg : s.isGoal = true
      · rw [runLoop_done (bfsStep_goal rest ex hg)] at h
        have hp : p = reconstructPath s := (Option.some.inj (Option.some.inj h)).symm
        obtain ⟨k, A, B, hAB, hA, hB, hmin, hlow⟩ := hoi
        have hgood := hsi.1 s (by simp)
        have hminS := hmin s (by simp)
        have hb : s.board = goalBoard := goal_state_board hgood.1 hg
        have hlenp : p.length = s.g := by rw [hp, ← hgood.2.2]
        rw [hlenp, ← hb]
        exact hminS
      · rw [runLoop_next (bfsStep_expand rest ex hg)] at h
        refine ih _ (bfs_searchInv_step hsi hg)
          (bfs_opt_step hwf hsi hoi fun t ht => hsub t ht) ?_ h
        intro t ht
        have ht2 : t ∈ (bfsPush s.getNeighbors rest (ex.insert s.getId)).1 :=
          List.mem_of_mem_drop ht
        rcases mem_bfsPush ht2 with h1 | h1
        · exact bfsPush_explored_mono
            (List.mem_insert_iff.mpr (Or.inr (hsub t h1)))
        · exact bfsPush_covers h1

theorem bfs_optimal {puzzle : Board} (hwf : WellFormedBoard puzzle) {fuel : Nat}
    {p : List Move} (h : bfs puzzle fuel = some (some p)) :
    MinDist puzzle goalBoard p.length := by
  refine bfs_opt_run hwf fuel _ (searchInv_init hwf) ?_ ?_ h
  · refine ⟨0, [PuzzleState.make puzzle none none], [], by simp [initConfig], ?_,
      by simp, ?_, ?_⟩
    · intro t ht
      simp only [List.mem_singleton] at ht
      subst ht
      rfl
    · intro t ht
      simp only [initConfig, List.mem_singleton] at ht
      subst ht
      exact ⟨⟨[], .nil, rfl⟩, fun q _ => Nat.zero_le _⟩
    · intro b q hq hlen
      exact absurd hlen (Nat.not_lt_zero _)
  · intro t ht
    simp [initConfig] at ht

theorem aStarPush_covers_g (heuristic : PuzzleState → Nat) :
    ∀ {ns fr : List PuzzleState} {ex : ExploredSet} {n : PuzzleState}, n ∈ ns →
      n.getId ∈ ex ∨
        ∃ s ∈ aStarPush heuristic ns fr ex, s.board = n.board ∧ s.g = n.g := by
  intro ns
  induction ns with
  | nil => intro fr ex n h; simp at h
  | cons n2 t ih =>
    intro fr ex n h
    unfold aStarPush
    rcases List.mem_cons.mp h with rfl | h2
    · by_cases hm : n.getId ∈ ex
      · rw [if_pos hm]; exact Or.inl hm
      · rw [if_neg hm]
        refine Or.inr ⟨(n.setH (heuristic n)).setF
          ((n.setH (heuristic n)).g + (n.setH (heuristic n)).h), ?_, ?_, ?_⟩
        · exact aStarPush_frontier_mono heuristic (mem_orderedInsert.mpr (Or.inr rfl))
        · rw [setF_board, setH_board]
        · rw [setF_g, setH_g]
    · by_cases hm : n2.getId ∈ ex
      · rw [if_pos hm]; exact ih h2
      · rw [if_neg hm]; exact ih h2

theorem aStar_cover {H : Board → Nat} {root : Board}
    (hcons : ∀ b, WellFormedBoard b → ∀ m b2, (m, b2) ∈ neighborMoves b →
      H b ≤ H b2 + 1)
    (hwf : WellFormedBoard root) {c : SearchConfig} (hinv : AStarInv H root c) :
    ∀ {q : List Move} {X : Board}, PathTo root q X → X.flatten ∉ c.explored →
      ∃ s ∈ c.frontier, s.f ≤ q.length + H X := by
  intro q X hpath
  induction hpath with
  | nil => intro hX; exact absurd hinv.2.2.2.1 hX
  | snoc hp hstep ih =>
    rename_i q2 b0 m2 X2
    intro hX
    by_cases hb0 : b0.flatten ∈ c.explored
    · obtain ⟨b, d, hflat, hwfb, hmind, hnbr⟩ := hinv.2.2.2.2 b0.flatten hb0
      have hb0wf : WellFormedBoard b0 := PathTo.wf hwf hp
      have hbeq : b = b0 := flatten_inj hwfb.1 hb0wf.1 hflat
      subst hbeq
      have hd : d ≤ q2.length := hmind.2 q2 hp
      obtain ⟨s, hs, hsb, hsg⟩ := hnbr m2 X2 hstep hX
      obtain ⟨hgood, hh, hf⟩ := hinv.1 s hs
      refine ⟨s, hs, ?_⟩
      rw [hf, hh, hsb, List.length_append]
      simp only [List.length_singleton]
      omega
    · obtain ⟨s, hs, hsf⟩ := ih hb0
      have hHstep : H b0 ≤ H X2 + 1 := hcons b0 (PathTo.wf hwf hp) m2 X2 hstep
      refine ⟨s, hs, ?_⟩
      rw [List.length_append]
      simp only [List.length_singleton]
      omega

theorem aStar_head_optimal {H : Board → Nat} {root : Board}
    (hcons : ∀ b, WellFormedBoard b → ∀ m b2, (m, b2) ∈ neighborMoves b →
      H b ≤ H b2 + 1)
    (hwf : WellFormedBoard root) {s : PuzzleState}
    {rest : List PuzzleState} {ex : ExploredSet}
    (hinv : AStarInv H root ⟨s :: rest, ex⟩) (hfresh : s.board.flatten ∉ ex) :
    MinDist root s.board s.g := by
  obtain ⟨hgood, hh, hf⟩ := hinv.1 s (by simp)
  have hreach : ReachableBoard root s.board := ⟨_, hgood.2.1⟩
  obtain ⟨d, hd⟩ := exists_minDist hreach
  have h1 := hd.2 _ hgood.2.1
  have h2 := hgood.2.2
  obtain ⟨p0, hp0, hl0⟩ := hd.1
  obtain ⟨t, ht, htf⟩ := aStar_cover hcons hwf hinv hp0 hfresh
  have hhead : s.f ≤ t.f := by
    rcases List.mem_cons.mp ht with rfl | ht2
    · exact le_refl _
    · exact (List.pairwise_cons.mp hinv.2.1).1 t ht2
  have hdg : d = s.g := by
    rw [hl0] at htf
    omega
  exact hdg ▸ hd

theorem aStar_opt_step {heuristic : PuzzleState → Nat} {H : Board → Nat}
    (hHb : ∀ s, heuristic s = H s.board)
    (hcons : ∀ b, WellFormedBoard b → ∀ m b2, (m, b2) ∈ neighborMoves b →
      H b ≤ H b2 + 1)
    {root : Board} (hwf : WellFormedBoard root) {s : PuzzleState}
    {rest : List PuzzleState} {ex : ExploredSet}
    (hinv : AStarInv H root ⟨s :: rest, ex⟩) (hg : ¬s.isGoal = true) :
    AStarInv H root ⟨aStarPush heuristic s.getNeighbors rest (ex.insert s.getId),
      ex.insert s.getId⟩ := by
  obtain ⟨hfr, hsort, hgl, hrt, hids⟩ := hinv
  obtain ⟨hgoodS, hhS, hfS⟩ := hfr s (by simp)
  have hfr1 : ∀ t ∈ aStarPush heuristic s.getNeighbors rest (ex.insert s.getId),
      GoodState root t ∧ t.h = H t.board ∧ t.f = t.g + t.h := by
    intro t ht
    rcases mem_aStarPush heuristic ht with h1 | ⟨n, hn, rfl⟩
    · exact hfr t (List.mem_cons_of_mem _ h1)
    · refine ⟨goodState_setF (goodState_setH (goodState_neighbor hgoodS hn) _) _, ?_, ?_⟩
      · rw [setF_h, setH_h, setF_board, setH_board, hHb]
      · rw [setF_f, setF_g, setF_h]
  have hsort1 := @aStarPush_pairwise heuristic s.getNeighbors rest
    (ex.insert s.getId) (List.Pairwise.of_cons hsort)
  by_cases hst : s.getId ∈ ex
  · have hexeq : ex.insert s.getId = ex := List.insert_of_mem hst
    rw [hexeq] at hfr1 hsort1 ⊢
    refine ⟨hfr1, hsort1, hgl, hrt, ?_⟩
    intro id hid
    obtain ⟨b, d, hflat, hwfb, hmind, hnbr⟩ := hids id hid
    refine ⟨b, d, hflat, hwfb, hmind, ?_⟩
    intro m2 b2 hmb hb2
    obtain ⟨t, ht, htb, htg⟩ := hnbr m2 b2 hmb hb2
    rcases List.mem_cons.mp ht with rfl | ht2
    · exfalso
      apply hb2
      rw [← htb]
      exact hst
    · exact ⟨t, aStarPush_frontier_mono heuristic ht2, htb, htg⟩
  · have hopt : MinDist root s.board s.g :=
      aStar_head_optimal hcons hwf ⟨hfr, hsort, hgl, hrt, hids⟩ hst
    refine ⟨hfr1, hsort1, ?_, ?_, ?_⟩
    · intro hc
      rcases List.mem_insert_iff.mp hc with h1 | h1
      · exact hg ((isGoal_iff s).mpr h1.symm)
      · exact hgl h1
    · exact List.mem_insert_iff.mpr (Or.inr hrt)
    · intro id hid
      rcases List.mem_insert_iff.mp hid with rfl | h2
      · refine ⟨s.board, s.g, rfl, hgoodS.1, hopt, ?_⟩
        intro m2 b2 hmb hb2
        have hn : PuzzleState.make b2 (some s) (some m2) ∈ s.getNeighbors := by
          unfold PuzzleState.getNeighbors
          exact List.mem_map.mpr ⟨(m2, b2), hmb, rfl⟩
        rcases @aStarPush_covers_g heuristic _ rest
          (ex.insert s.getId) _ hn with h3 | ⟨t, ht, htb, htg⟩
        · exact absurd h3 hb2
        · refine ⟨t, ht, ?_, ?_⟩
          · rw [htb, make_board]
          · rw [htg, make_child_g]
      · obtain ⟨b, d, hflat, hwfb, hmind, hnbr⟩ := hids id h2
        refine ⟨b, d, hflat, hwfb, hmind, ?_⟩
        intro m2 b2 hmb hb2
        have hb2x : b2.flatten ∉ ex := fun hc =>
          hb2 (List.mem_insert_iff.mpr (Or.inr hc))
        obtain ⟨t, ht, htb, htg⟩ := hnbr m2 b2 hmb hb2x
        rcases List.mem_cons.mp ht with rfl | ht2
        · exfalso
          apply hb2
          rw [← htb]
          exact List.mem_insert_iff.mpr (Or.inl rfl)
        · exact ⟨t, aStarPush_frontier_mono heuristic ht2, htb, htg⟩

theorem aStar_opt_run {heuristic : PuzzleState → Nat} {H : Board → Nat}
    (hHb : ∀ s, heuristic s = H s.board)
    (hcons : ∀ b, WellFormedBoard b → ∀ m b2, (m, b2) ∈ neighborMoves b →
      H b ≤ H b2 + 1)
    {root : Board} (hwf : WellFormedBoard root) :
    ∀ (fuel : Nat) (c : SearchConfig), AStarInv H root c →
      ∀ {p : List Move}, runLoop (aStarStep heuristic) fuel c = some (some p) →
        MinDist root goalBoard p.length := by
  intro fuel
  induction fuel with
  | zero => intro c hinv p h; cases h
  | succ fuel ih =>
    intro c hinv p h
    obtain ⟨fr, ex⟩ := c
    cases fr with
    | nil =>
      rw [runLoop_done (aStarStep_nil heuristic ex)] at h
      simp at h
    | cons s rest =>
      by_cases hg : s.isGoal = true
      · rw [runLoop_done (aStarStep_goal heuristic rest ex hg)] at h
        have hp : p = reconstructPath s := (Option.some.inj (Option.some.inj h)).symm
        obtain ⟨hgood, hh, hf⟩ := hinv.1 s (by simp)
        have hfresh : s.board.flatten ∉ ex := by
          rw [(isGoal_iff s).mp hg]
          exact hinv.2.2.1
        have hopt := aStar_head_optimal hcons hwf hinv hfresh
        have hb : s.board = goalBoard := goal_state_board hgood.1 hg
        have hlenp : p.length = s.g := by rw [hp, ← hgood.2.2]
        rw [hlenp, ← hb]
        exact hopt
      · rw [runLoop_next (aStarStep_expand heuristic rest ex hg)] at h
        exact ih _ (aStar_opt_step hHb hcons hwf hinv hg) h

theorem aStar_optimal {heuristic : PuzzleState → Nat} {H : Board → Nat}
    (hHb : ∀ s, heuristic s = H s.board)
    (hcons : ∀ b, WellFormedBoard b → ∀ m b2, (m, b2) ∈ neighborMoves b →
      H b ≤ H b2 + 1)
    {puzzle : Board} (hwf : WellFormedBoard puzzle) {fuel : Nat}
    {p : List Move} (h : aStar puzzle heuristic fuel = some (some p)) :
    MinDist puzzle goalBoard p.length := by
  unfold aStar at h
  cases fuel with
  | zero => cases h
  | succ fuel =>
    have h2 : runLoop (aStarStep heuristic) (fuel + 1)
        ⟨[PuzzleState.make puzzle none none], []⟩ = some (some p) := h
    by_cases hg : (PuzzleState.make puzzle none none).isGoal = true
    · rw [runLoop_done (aStarStep_goal heuristic [] [] hg)] at h2
      have hp : p = reconstructPath (PuzzleState.make puzzle none none) :=
        (Option.some.inj (Option.some.inj h2)).symm
      have hb : puzzle = goalBoard :=
        goal_state_board (s := PuzzleState.make puzzle none none) hwf hg
      rw [hp, ← hb]
      exact ⟨⟨[], .nil, rfl⟩, fun q _ => Nat.zero_le _⟩
    · rw [runLoop_next (aStarStep_expand heuristic [] [] hg)] at h2
      refine aStar_opt_run hHb hcons hwf fuel _ ?_ h2
      have hgoodI : GoodState puzzle (PuzzleState.make puzzle none none) :=
        goodState_root hwf
      refine ⟨?_, aStarPush_pairwise heuristic List.Pairwise.nil, ?_, ?_, ?_⟩
      · intro t ht
        rcases mem_aStarPush heuristic ht with h1 | ⟨n, hn, rfl⟩
        · simp at h1
        · refine ⟨goodState_setF (goodState_setH (goodState_neighbor hgoodI hn) _) _,
            ?_, ?_⟩
          · rw [setF_h, setH_h, setF_board, setH_board, hHb]
          · rw [setF_f, setF_g, setF_h]
      · intro hc
        have hc2 : goalFlat ∈
            List.insert (PuzzleState.make puzzle none none).getId [] := hc
        rcases List.mem_insert_iff.mp hc2 with h1 | h1
        · exact hg ((isGoal_iff _).mpr h1.symm)
        · simp at h1
      · show List.flatten puzzle ∈
          List.insert (PuzzleState.make puzzle none none).getId []
        exact List.mem_insert_iff.mpr (Or.inl rfl)
      · intro id hid
        have hid2 : id ∈
            List.insert (PuzzleState.make puzzle none none).getId [] := hid
        rcases List.mem_insert_iff.mp hid2 with rfl | h3
        · refine ⟨puzzle, 0, rfl, hwf,
            ⟨⟨[], .nil, rfl⟩, fun q _ => Nat.zero_le _⟩, ?_⟩
          intro m2 b2 hmb hb2
          have hn : PuzzleState.make b2 (some (PuzzleState.make puzzle none none))
              (some m2) ∈ (PuzzleState.make puzzle none none).getNeighbors := by
            unfold PuzzleState.getNeighbors
            exact List.mem_map.mpr ⟨(m2, b2), hmb, rfl⟩
          rcases @aStarPush_covers_g heuristic _ []
            (List.insert (PuzzleState.make puzzle none none).getId []) _ hn with
            h3 | ⟨t, ht, htb, htg⟩
          · exact absurd h3 hb2
          · refine ⟨t, ht, ?_, ?_⟩
            · rw [htb, make_board]
            · rw [htg, make_child_g]
              exact Nat.le_refl _
        · exact absurd h3 (List.not_mem_nil id)

theorem aStar_manhattan_optimal {puzzle : Board} (hwf : WellFormedBoard puzzle)
    {fuel : Nat} {p : List Move}
    (h : aStar puzzle manhattanDistance fuel = some (some p)) :
    MinDist puzzle goalBoard p.length :=
  aStar_optimal manhattanDistance_board
    (fun b hb m b2 hs => manhattan_consistent hb hs) hwf h

/-- C2: whenever `bfs` returns a move sequence, its length is the minimum
number of blank slides from the input board to the goal board, and likewise
for `aStar` with the `manhattanDistance` heuristic (which is consistent);
`bestFirstSearch` carries no such guarantee: on the well-formed board
`[[1,6,2],[5,0,3],[4,7,8]]` it returns a valid 10-move sequence although an
8-move solution exists. -/
theorem C2_optimality :
    (∀ (puzzle : Board), WellFormedBoard puzzle → ∀ (fuel : Nat) (p : List Move),
      bfs puzzle fuel = some (some p) → MinDist puzzle goalBoard p.length) ∧
    (∀ (puzzle : Board), WellFormedBoard puzzle → ∀ (fuel : Nat) (p : List Move),
      aStar puzzle manhattanDistance fuel = some (some p) →
      MinDist puzzle goalBoard p.length) ∧
    (∃ (puzzle : Board) (fuel : Nat) (p q : List Move),
      WellFormedBoard puzzle ∧
      bestFirstSearch puzzle manhattanDistance fuel = some (some p) ∧
      PathTo puzzle q goalBoard ∧ q.length < p.length) := by
  refine ⟨fun puzzle hwf fuel p h => bfs_optimal hwf h,
    fun puzzle hwf fuel p h => aStar_manhattan_optimal hwf h,
    ⟨[[1, 6, 2], [5, 0, 3], [4, 7, 8]], 13,
      [(0, -1), (1, 0), (0, 1), (-1, 0), (-1, 0), (0, 1), (1, 0), (0, -1), (1, 0), (0, 1)],
      [(-1, 0), (0, 1), (1, 0), (0, -1), (0, -1), (1, 0), (0, 1), (0, 1)],
      by decide, by decide, checkPath_sound (by decide), by decide⟩⟩

end KPuzzle


